import Mathlib

/-!
Verification development for the shaping-check harness (`check-shaping.py`).

The embedding works over `List Char` (named `Str` below) so that string
algorithms can be handled by structural induction.  Python's `"sep".join`
and `str.split` are embedded as `pyJoin` / `pySplit`; `"%i"` formatting as
`repNat` / `repInt`.  The HarfBuzz font object is abstracted to the two
glyph-naming functions the checked code calls (`glyph_from_string`,
`glyph_to_string`); shaping itself is an external collaborator, so shaped
buffers appear as inputs.
-/

namespace CheckShaping

abbrev Str := List Char

/-- Python's `sep.join(parts)`. -/
def pyJoin (sep : Str) : List Str → Str
  | [] => []
  | [s] => s
  | s :: t :: rest => s ++ sep ++ pyJoin sep (t :: rest)

/-- Python's `text.split(sep)` for a single-character separator
(`"".split(sep) == [""]`, hence the `[[]]` base case). -/
def pySplit (sep : Char) : Str → List Str
  | [] => [[]]
  | c :: rest =>
    if c = sep then [] :: pySplit sep rest
    else
      match pySplit sep rest with
      | [] => [[c]]
      | s :: ss => (c :: s) :: ss

/-- Decimal digits of a positive number, most significant first; `fuel`
bounds the recursion (any `fuel ≥ n` is enough). -/
def repNatCore : Nat → Nat → Str
  | 0, _ => []
  | fuel + 1, n => if n = 0 then [] else repNatCore fuel (n / 10) ++ [Nat.digitChar (n % 10)]

/-- Python's `"%i" % n` for a natural number. -/
def repNat (n : Nat) : Str := if n = 0 then ['0'] else repNatCore n n

/-- Python's `"%i" % i` for an integer. -/
def repInt (i : Int) : Str := if i < 0 then '-' :: repNat i.natAbs else repNat i.toNat

/-- Numeric value of a decimal digit character. -/
def digitVal (c : Char) : Nat := c.toNat - 48

/-- Value of a most-significant-first digit string (`int(s)` on `\d+`). -/
def parseNatDigits (ds : Str) : Nat := ds.foldl (fun acc c => 10 * acc + digitVal c) 0

/-- Greedy `(\d+)`: the leading digit run and its value, `none` if there is
no leading digit. -/
def parseNatTok (s : Str) : Option (Nat × Str) :=
  let ds := s.takeWhile (·.isDigit)
  if ds = [] then none else some (parseNatDigits ds, s.dropWhile (·.isDigit))

/-- Greedy `(-?\d+)`. -/
def parseIntTok (s : Str) : Option (Int × Str) :=
  if s.head? = some '-' then (parseNatTok s.tail).map (fun p => (-(p.1 : Int), p.2))
  else (parseNatTok s).map (fun p => ((p.1 : Int), p.2))

/-- The fields of one parsed glyph token of `_buffer_from_string`
(regex groups 1, 2, 4, 5, 7; absent groups already defaulted to 0). -/
structure ParsedGlyph where
  name : Str
  cluster : Nat
  x_offset : Int
  y_offset : Int
  x_advance : Int
deriving DecidableEq, Repr

/-- The part of `_buffer_from_string`'s token regex after the name:
`(\d+)(@(-?\d+),(-?\d+))?(\+(-?\d+))?$`, with Python's
`int(group or 0)` defaulting.  The optional groups are dispatched on the
head character (`@` / `+`), which is exactly how the regex can match. -/
def parseAfterEq (s : Str) : Option (Nat × Int × Int × Int) :=
  match parseNatTok s with
  | none => none
  | some (cluster, s1) =>
    let offs : Option (Int × Int × Str) :=
      if s1.head? = some '@' then
        match parseIntTok s1.tail with
        | none => none
        | some (x, r1) =>
          if r1.head? = some ',' then
            match parseIntTok r1.tail with
            | none => none
            | some (y, r3) => some (x, y, r3)
          else none
      else some (0, 0, s1)
    match offs with
    | none => none
    | some (xo, yo, s2) =>
      if s2 = [] then some (cluster, xo, yo, 0)
      else if s2.head? = some '+' then
        match parseIntTok s2.tail with
        | none => none
        | some (adv, r1) => if r1 = [] then some (cluster, xo, yo, adv) else none
      else none

/-- The greedy `^(.*)=` split of the token regex: Python's greedy `(.*)`
selects the rightmost `=` whose suffix matches the rest of the pattern,
which is what the tail-first recursion computes. -/
def findEqSplit : Str → Option ParsedGlyph
  | [] => none
  | c :: cs =>
    match findEqSplit cs with
    | some pg => some { pg with name := c :: pg.name }
    | none =>
      if c = '=' then
        match parseAfterEq cs with
        | none => none
        | some (cl, xo, yo, adv) => some ⟨[], cl, xo, yo, adv⟩
      else none

/-- `re.match(r"^(.*)=(\d+)(@(-?\d+),(-?\d+))?(\+(-?\d+))?$", item)`:
`.` does not match a newline and `$` also matches just before one final
trailing newline, so a token parses exactly when, after dropping a single
trailing newline, it is newline-free and splits as `name=rest`. -/
def parseToken (tok : Str) : Option ParsedGlyph :=
  let core := if tok.getLast? = some (Char.ofNat 10) then tok.dropLast else tok
  if (Char.ofNat 10) ∈ core then none else findEqSplit core

/-- The two glyph-naming calls `check-shaping.py` makes on an `hb.Font`. -/
structure HBFont where
  glyph_from_string : Str → Option Nat
  glyph_to_string : Nat → Str

/-- `_FakeItem` as used for `glyph_infos`: codepoint (glyph id), cluster,
and the fallback display name kept when the glyph name is unresolvable. -/
structure GlyphInfo where
  codepoint : Nat
  cluster : Nat
  name : Option Str
deriving DecidableEq, Repr

/-- `_FakeItem` as used for `glyph_positions` (the `position` 4-tuple). -/
structure GlyphPos where
  x_offset : Int
  y_offset : Int
  x_advance : Int
  y_advance : Int
deriving DecidableEq, Repr

/-- `_FakeBuffer`. -/
structure FakeBuffer where
  glyph_infos : List GlyphInfo
  glyph_positions : List GlyphPos
deriving DecidableEq, Repr

/-- Glyph-info/position pair built from one parsed token in
`_buffer_from_string` (unresolvable names keep the display name with
codepoint 0; `y_advance` is always 0). -/
def glyphFromParsed (font : HBFont) (pg : ParsedGlyph) : GlyphInfo × GlyphPos :=
  (match font.glyph_from_string pg.name with
   | some cp => ⟨cp, pg.cluster, none⟩
   | none => ⟨0, pg.cluster, some pg.name⟩,
   ⟨pg.x_offset, pg.y_offset, pg.x_advance, 0⟩)

/-- The token loop of `_buffer_from_string`: parse tokens in order, the
first failure raising `ValueError` (embedded as `none`). -/
def parseTokens : List Str → Option (List ParsedGlyph)
  | [] => some []
  | t :: ts =>
    match parseToken t with
    | none => none
    | some pg =>
      match parseTokens ts with
      | none => none
      | some pgs => some (pg :: pgs)

/-- `_buffer_from_string`: split on `|`, parse every token, and build the
fake buffer. -/
def bufferFromString (font : HBFont) (text : Str) : Option FakeBuffer :=
  match parseTokens (pySplit '|' text) with
  | none => none
  | some pgs =>
    some ⟨pgs.map (fun pg => (glyphFromParsed font pg).1),
          pgs.map (fun pg => (glyphFromParsed font pg).2)⟩

/-- The glyph name `_serialize_buffer` prints: the retained fallback name
if present, else `font.glyph_to_string(codepoint)`. -/
def displayName (font : HBFont) (info : GlyphInfo) : Str :=
  match info.name with
  | some n => n
  | none => font.glyph_to_string info.codepoint

/-- HarfBuzz glyph naming is consistent for `nm` when resolving `nm` to a
glyph id and naming that id back yields `nm` again (names are unique). -/
def fontNameConsistent (font : HBFont) (nm : Str) : Bool :=
  match font.glyph_from_string nm with
  | some cp => decide (font.glyph_to_string cp = nm)
  | none => true

/-- A one-glyph example font used to evaluate the model on concrete
inputs: glyph id 1 is named `a`. -/
def sampleFont : HBFont :=
  ⟨fun s => if s = ['a'] then some 1 else none,
   fun cp => if cp = 1 then ['a'] else ['x']⟩

/-- The parsed-token image of one serialized glyph pair: the display
name, the cluster, the offsets exactly when one is nonzero (the
serializer omits `@0,0`), and the x-advance. -/
def parsedOfPair (font : HBFont) (ip : GlyphInfo × GlyphPos) : ParsedGlyph :=
  ⟨displayName font ip.1, ip.1.cluster,
   (if ip.2.x_offset ≠ 0 ∨ ip.2.y_offset ≠ 0 then ip.2.x_offset else 0),
   (if ip.2.x_offset ≠ 0 ∨ ip.2.y_offset ≠ 0 then ip.2.y_offset else 0),
   ip.2.x_advance⟩

/-- One glyph token of `_serialize_buffer`: bare name when `glyphs_only`,
else `name=cluster`, `@x,y` exactly when an offset is nonzero, and always
`+x_advance`. -/
def serializeGlyph (font : HBFont) (glyphsOnly : Bool) (info : GlyphInfo) (pos : GlyphPos) : Str :=
  if glyphsOnly then displayName font info
  else
    displayName font info ++ ('=' :: repNat info.cluster)
      ++ (if pos.x_offset ≠ 0 ∨ pos.y_offset ≠ 0 then
            ('@' :: repInt pos.x_offset) ++ (',' :: repInt pos.y_offset)
          else [])
      ++ ('+' :: repInt pos.x_advance)

/-- `_serialize_buffer`: glyph tokens joined by `|` (the `zip` pairs
infos with positions). -/
def serializeBuffer (font : HBFont) (buffer : FakeBuffer) (glyphsOnly : Bool) : Str :=
  pyJoin ['|'] ((buffer.glyph_infos.zip buffer.glyph_positions).map
    fun ip => serializeGlyph font glyphsOnly ip.1 ip.2)

/-! ## Diff engine

`diff` delegates to `difflib.SequenceMatcher(isjunk, a=new_str, b=old_str)`.
The matcher is embedded below: `b2j` position lists (junk and, for long
second sequences, "popular" elements are excluded from matching), the
`find_longest_match` dynamic program with its four junk-aware extension
loops, the recursive collection of matching blocks (CPython drains an
explicit queue and sorts; the recursion below produces the same sorted
list), adjacent-block merging, and opcode generation. -/

/-- The junk predicate `diff` passes to `SequenceMatcher`. -/
def smIsJunk (c : Char) : Bool := c = '|' || c = '+' || c = '=' || c = '@' || c = ','

/-- Ascending positions of `c` in `b` (the `b2j` entry before deletions). -/
def smPositions (b : Str) (c : Char) : List Nat :=
  (List.range b.length).filter fun j => b.getD j ' ' = c

/-- The `autojunk` heuristic: for `len(b) >= 200`, elements occurring more
than `len(b) // 100 + 1` times are "popular" and removed from `b2j`. -/
def smIsPopular (b : Str) (c : Char) : Bool :=
  decide (200 ≤ b.length) && decide (b.length / 100 + 1 < b.count c)

/-- `b2j` after junk and popular elements are deleted. -/
def smB2j (b : Str) (c : Char) : List Nat :=
  if smIsJunk c || smIsPopular b c then [] else smPositions b c

/-- `isbjunk`: membership in `bjunk`, the junk elements that occur in `b`. -/
def smIsBJunk (b : Str) (c : Char) : Bool := smIsJunk c && b.contains c

/-- Inner loop of `find_longest_match` over the `b2j` positions of `a[i]`:
`k = newj2len[j] = j2len.get(j-1, 0) + 1` (a lookup at `-1` misses, hence
the `j = 0` case), and the best triple is replaced only on a strictly
longer match. -/
def smInner (j2lenOld : Nat → Nat) (i : Nat) :
    List Nat → (Nat → Nat) → Nat × Nat × Nat → (Nat → Nat) × (Nat × Nat × Nat)
  | [], acc, best => (acc, best)
  | j :: js, acc, best =>
    let k := (if j = 0 then 0 else j2lenOld (j - 1)) + 1
    let acc' := fun x => if x = j then k else acc x
    let best' := if best.2.2 < k then (i + 1 - k, j + 1 - k, k) else best
    smInner j2lenOld i js acc' best'

/-- Outer loop of `find_longest_match` over `i in range(alo, ahi)`; the
`continue`/`break` on `j < blo` / `j >= bhi` keeps exactly the in-range
positions of the ascending `b2j` list. -/
def smOuter (a b : Str) (blo bhi : Nat) :
    List Nat → (Nat → Nat) → Nat × Nat × Nat → Nat × Nat × Nat
  | [], _, best => best
  | i :: is, j2len, best =>
    let js := (smB2j b (a.getD i ' ')).filter fun j => decide (blo ≤ j) && decide (j < bhi)
    let st := smInner j2len i js (fun _ => 0) best
    smOuter a b blo bhi is st.1 st.2

/-- One leftward `while` extension of `find_longest_match`: grow the match
while the next `b` element satisfies `p` and the elements agree.  The loop
decrements `besti` and requires `alo < besti`, so it runs at most `besti`
times; `fuel` is initialized to `besti` by the wrapper (when fuel is 0 so
is `besti` and the guard is false anyway). -/
def smGrowLeftFuel (a b : Str) (alo blo : Nat) (p : Char → Bool) :
    Nat → Nat → Nat → Nat → Nat × Nat × Nat
  | 0, besti, bestj, bestsize => (besti, bestj, bestsize)
  | fuel + 1, besti, bestj, bestsize =>
    if alo < besti ∧ blo < bestj ∧ p (b.getD (bestj - 1) ' ') = true ∧
        a.getD (besti - 1) ' ' = b.getD (bestj - 1) ' ' then
      smGrowLeftFuel a b alo blo p fuel (besti - 1) (bestj - 1) (bestsize + 1)
    else (besti, bestj, bestsize)

def smGrowLeft (a b : Str) (alo blo : Nat) (p : Char → Bool)
    (besti bestj bestsize : Nat) : Nat × Nat × Nat :=
  smGrowLeftFuel a b alo blo p besti besti bestj bestsize

/-- One rightward `while` extension of `find_longest_match`: the loop
increments `bestsize` and requires `besti + bestsize < ahi`, so it runs at
most `ahi - (besti + bestsize)` times, which initializes `fuel`. -/
def smGrowRightFuel (a b : Str) (ahi bhi : Nat) (p : Char → Bool) :
    Nat → Nat → Nat → Nat → Nat × Nat × Nat
  | 0, besti, bestj, bestsize => (besti, bestj, bestsize)
  | fuel + 1, besti, bestj, bestsize =>
    if besti + bestsize < ahi ∧ bestj + bestsize < bhi ∧
        p (b.getD (bestj + bestsize) ' ') = true ∧
        a.getD (besti + bestsize) ' ' = b.getD (bestj + bestsize) ' ' then
      smGrowRightFuel a b ahi bhi p fuel besti bestj (bestsize + 1)
    else (besti, bestj, bestsize)

def smGrowRight (a b : Str) (ahi bhi : Nat) (p : Char → Bool)
    (besti bestj bestsize : Nat) : Nat × Nat × Nat :=
  smGrowRightFuel a b ahi bhi p (ahi - (besti + bestsize)) besti bestj bestsize

/-- `SequenceMatcher.find_longest_match`: the dynamic program followed by
the non-junk and junk extension passes. -/
def findLongestMatch (a b : Str) (alo ahi blo bhi : Nat) : Nat × Nat × Nat :=
  let best := smOuter a b blo bhi (List.range' alo (ahi - alo)) (fun _ => 0) (alo, blo, 0)
  let e1 := smGrowLeft a b alo blo (fun c => !smIsBJunk b c) best.1 best.2.1 best.2.2
  let e2 := smGrowRight a b ahi bhi (fun c => !smIsBJunk b c) e1.1 e1.2.1 e1.2.2
  let e3 := smGrowLeft a b alo blo (fun c => smIsBJunk b c) e2.1 e2.2.1 e2.2.2
  smGrowRight a b ahi bhi (fun c => smIsBJunk b c) e3.1 e3.2.1 e3.2.2

/-- `get_matching_blocks` recursion: CPython pushes sub-regions on a queue
and sorts the collected blocks; emitting left-recursion, match, then
right-recursion yields that sorted list directly.  (CPython also skips an
empty sub-region; recursing into it returns `[]`, the same result.)
`fuel` bounds the recursion depth; every region strictly shrinks, so any
`fuel` past the region perimeter is enough. -/
def matchingBlocksAux (a b : Str) : Nat → Nat → Nat → Nat → Nat → List (Nat × Nat × Nat)
  | 0, _, _, _, _ => []
  | fuel + 1, alo, ahi, blo, bhi =>
    let m := findLongestMatch a b alo ahi blo bhi
    if m.2.2 = 0 then []
    else
      matchingBlocksAux a b fuel alo m.1 blo m.2.1 ++ [m] ++
        matchingBlocksAux a b fuel (m.1 + m.2.2) ahi (m.2.1 + m.2.2) bhi

/-- The adjacent-block merge of `get_matching_blocks`, plus the
`(la, lb, 0)` terminator. -/
def mergeAdjacent (la lb : Nat) (blocks : List (Nat × Nat × Nat)) : List (Nat × Nat × Nat) :=
  let step : (Nat × Nat × Nat) × List (Nat × Nat × Nat) → Nat × Nat × Nat →
      (Nat × Nat × Nat) × List (Nat × Nat × Nat) :=
    fun st bl =>
      if st.1.1 + st.1.2.2 = bl.1 ∧ st.1.2.1 + st.1.2.2 = bl.2.1 then
        ((st.1.1, st.1.2.1, st.1.2.2 + bl.2.2), st.2)
      else
        ((bl.1, bl.2.1, bl.2.2), st.2 ++ if st.1.2.2 ≠ 0 then [st.1] else [])
  let fin := blocks.foldl step ((0, 0, 0), [])
  fin.2 ++ (if fin.1.2.2 ≠ 0 then [fin.1] else []) ++ [(la, lb, 0)]

/-- `SequenceMatcher.get_matching_blocks`. -/
def getMatchingBlocks (a b : Str) : List (Nat × Nat × Nat) :=
  mergeAdjacent a.length b.length
    (matchingBlocksAux a b (a.length + b.length + 1) 0 a.length 0 b.length)

/-- An opcode tag of `get_opcodes`. -/
inductive SMTag where
  | equal
  | insert
  | delete
  | replace
deriving DecidableEq, Repr

/-- `SequenceMatcher.get_opcodes`: gaps before each matching block become
replace/delete/insert opcodes, each nonempty block an equal opcode. -/
def getOpcodes (a b : Str) : List (SMTag × Nat × Nat × Nat × Nat) :=
  let step : (Nat × Nat) × List (SMTag × Nat × Nat × Nat × Nat) → Nat × Nat × Nat →
      (Nat × Nat) × List (SMTag × Nat × Nat × Nat × Nat) :=
    fun st bl =>
      let i := st.1.1
      let j := st.1.2
      let gap : List (SMTag × Nat × Nat × Nat × Nat) :=
        if i < bl.1 ∧ j < bl.2.1 then [(.replace, i, bl.1, j, bl.2.1)]
        else if i < bl.1 then [(.delete, i, bl.1, j, bl.2.1)]
        else if j < bl.2.1 then [(.insert, i, bl.1, j, bl.2.1)]
        else []
      let eqop : List (SMTag × Nat × Nat × Nat × Nat) :=
        if bl.2.2 ≠ 0 then [(.equal, bl.1, bl.1 + bl.2.2, bl.2.1, bl.2.1 + bl.2.2)] else []
      ((bl.1 + bl.2.2, bl.2.1 + bl.2.2), st.2 ++ gap ++ eqop)
  ((getMatchingBlocks a b).foldl step ((0, 0), [])).2

/-- The opcodes `diff` iterates over: `SequenceMatcher` is constructed with
`a = new_str`, `b = old_str` (note the swap). -/
def diffOpcodes (old_str new_str : Str) : List (SMTag × Nat × Nat × Nat × Nat) :=
  getOpcodes new_str old_str

/-- Python's `s[lo:hi]` for `0 ≤ lo ≤ hi ≤ len`. -/
def pySlice (s : Str) (lo hi : Nat) : Str := (s.take hi).drop lo

/-- The apostrophe character (the HTML class attributes quote with it). -/
def sq : Char := Char.ofNat 39

def delOpen : Str := "<del>".toList
def delClose : Str := "</del>".toList
def insOpen : Str := "<ins>".toList
def insClose : Str := "</ins>".toList
def expectedSpanOpen : Str := "<span class=".toList ++ [sq] ++ "expected".toList ++ [sq] ++ ">".toList
def actualSpanOpen : Str := "<span class=".toList ++ [sq] ++ "actual".toList ++ [sq] ++ ">".toList
def spanClose : Str := "</span>".toList

/-- The per-opcode accumulation of `diff` into the `old` and `new` lines:
equal text verbatim; insert, delete and replace all wrap the old side in
`<del>` and the new side in `<ins>`. -/
def diffPieces (old_str new_str : Str) : Str × Str :=
  (diffOpcodes old_str new_str).foldl
    (fun acc op =>
      match op.1 with
      | .equal =>
        (acc.1 ++ pySlice old_str op.2.2.2.1 op.2.2.2.2, acc.2 ++ pySlice new_str op.2.1 op.2.2.1)
      | _ =>
        (acc.1 ++ delOpen ++ pySlice old_str op.2.2.2.1 op.2.2.2.2 ++ delClose,
         acc.2 ++ insOpen ++ pySlice new_str op.2.1 op.2.2.1 ++ insClose))
    ([], [])

/-- `diff(old_str, new_str)`: the rendered `<pre>` block. -/
def diff (old_str new_str : Str) : Str :=
  let pieces := diffPieces old_str new_str
  "<pre>".toList ++ expectedSpanOpen ++ pieces.1 ++ spanClose ++ [Char.ofNat 10] ++
    actualSpanOpen ++ pieces.2 ++ spanClose ++ "</pre>".toList

/-! ## Generic test runner

`run_a_set_of_shaping_tests` is a generator parameterized by the per-case
executor, the case filter, the report generator and an optional one-time
preparation step.  Documents are modelled after parsing: JSON decoding and
file I/O are external, so a discovered file is either invalid JSON, a
parsed object without the required `tests` key, or a parsed document.  The
executor's mutation of the shared `failed_shaping_tests` list is embedded
as a function from the accumulator to the new accumulator.  An early
`return` of the generator is the `Bool` abort component threaded below. -/

/-- A status/message pair yielded by a check (`True`/`False`/`None` is
pass/fail/skip). -/
structure Message where
  code : String
  header : String
deriving DecidableEq, Repr

abbrev RunResult := Option Bool × Message

/-- One test case as the runner sees it: presence of `input`, the
`exclude` and `only` font lists, and an opaque payload for the
filter/executor.  (`test.get("only")` falsy means both a missing key and
an empty list, so `only = []` models both.) -/
structure ShapingTest (κ : Type) where
  input : Option String
  exclude : List String
  only : List String
  payload : κ
deriving DecidableEq, Repr

/-- A discovered test-document file after JSON decoding. -/
inductive DocContent (γ κ : Type) where
  | invalidJson (err : String)
  | missingTests
  | ok (configuration : γ) (tests : List (ShapingTest κ))
deriving DecidableEq, Repr

structure ShapingDoc (γ κ : Type) where
  name : String
  content : DocContent γ κ
deriving DecidableEq, Repr

/-- The configured test directory: missing key, not a directory, or the
discovered `*.json` documents. -/
inductive TestDir (γ κ : Type) where
  | unconfigured
  | notDir (name : String)
  | dir (docs : List (ShapingDoc γ κ))
deriving DecidableEq, Repr

/-- The per-case loop of `run_a_set_of_shaping_tests` for one document:
filter, `input` presence (abort on absence), `exclude`/`only` font
skips, then the executor.  Returns the failure accumulator, the updated
run-global `ran_a_test` flag, and whether the run aborted. -/
def runCases {γ κ φ : Type} (fontName : String) (testFilter : ShapingTest κ → γ → Bool)
    (runATest : ShapingTest κ → γ → List φ → List φ) (config : γ) :
    List (ShapingTest κ) → List φ → Bool → List φ × Bool × Bool
  | [], failed, ran => (failed, ran, false)
  | t :: rest, failed, ran =>
    if ¬ testFilter t config then runCases fontName testFilter runATest config rest failed ran
    else match t.input with
      | none => (failed, ran, true)
      | some _ =>
        if fontName ∈ t.exclude then runCases fontName testFilter runATest config rest failed ran
        else if t.only ≠ [] ∧ fontName ∉ t.only then
          runCases fontName testFilter runATest config rest failed ran
        else runCases fontName testFilter runATest config rest (runATest t config failed) true

def passMessage (docName : String) : Message :=
  ⟨"pass", docName ++ ": No regression detected"⟩

def invalidJsonMessage (docName err : String) : Message :=
  ⟨"shaping-invalid-json", docName ++ ": Invalid JSON: " ++ err ++ "."⟩

def missingTestsMessage (docName : String) : Message :=
  ⟨"shaping-missing-tests", docName ++ ": JSON file must have a " ++ sq.toString ++ "tests" ++ sq.toString ++ " key."⟩

def missingInputMessage (docName : String) : Message :=
  ⟨"shaping-missing-input", docName ++ ": test is missing an input key."⟩

/-- The document loop of `run_a_set_of_shaping_tests`.  The executor
receives the preparation result through `runATest`'s closure; structural
errors yield one Fail and abort (the generator `return`s), otherwise a
document with at least one executed case in the run so far yields one
Pass or delegates to the report generator. -/
def runDocs {γ κ φ : Type} (fontName : String) (testFilter : ShapingTest κ → γ → Bool)
    (runATest : ShapingTest κ → γ → List φ → List φ)
    (generateReport : γ → String → List φ → List RunResult) :
    List (ShapingDoc γ κ) → Bool → List RunResult × Bool × Bool
  | [], ran => ([], ran, false)
  | d :: rest, ran =>
    match d.content with
    | .invalidJson e => ([(some false, invalidJsonMessage d.name e)], ran, true)
    | .missingTests => ([(some false, missingTestsMessage d.name)], ran, true)
    | .ok config tests =>
      let r := runCases fontName testFilter runATest config tests [] ran
      if r.2.2 then ([(some false, missingInputMessage d.name)], r.2.1, true)
      else
        let docResults :=
          if r.2.1 then
            if r.1.isEmpty then [(some true, passMessage d.name)]
            else generateReport config d.name r.1
          else []
        let rec' := runDocs fontName testFilter runATest generateReport rest r.2.1
        (docResults ++ rec'.1, rec'.2.1, rec'.2.2)

/-- `run_a_set_of_shaping_tests`: directory checks, the document loop, and
the two trailing skip conditions (skipped entirely when the generator
already returned on a structural error; `shaping_file_found` is set on
every loop iteration, so it equals the non-emptiness of the glob). -/
def runASetOfShapingTests {γ κ φ : Type} (fontName : String)
    (testFilter : ShapingTest κ → γ → Bool)
    (runATest : ShapingTest κ → γ → List φ → List φ)
    (generateReport : γ → String → List φ → List RunResult)
    (testDirectory : TestDir γ κ) : List RunResult :=
  match testDirectory with
  | .unconfigured =>
    [(some false, ⟨"no-dir", "Shaping test directory not defined in configuration file"⟩)]
  | .notDir nm =>
    [(some false, ⟨"not-dir", "Shaping test directory " ++ nm ++ " not found or not a directory."⟩)]
  | .dir docs =>
    let r := runDocs fontName testFilter runATest generateReport docs false
    if r.2.2 then r.1
    else
      r.1 ++ (if docs.isEmpty then [(none, ⟨"skip", "No test files found."⟩)] else [])
        ++ (if r.2.1 then [] else [(none, ⟨"skip", "No applicable tests ran."⟩)])

/-! ## Regression executor (`run_shaping_regression`)

Shaping itself is the external collaborator, so the shaped buffer for the
case's input is a parameter.  A `KeyError` escaping the executor is an
`Except.error`. -/

/-- A test case's `expectation`: a literal serialized stream or a
per-font-name JSON object. -/
inductive Expectation where
  | lit (s : Str)
  | perFont (m : List (String × Str))
deriving DecidableEq, Repr

/-- Lookup in a JSON object modelled as an association list. -/
def lookupKey (m : List (String × Str)) (k : String) : Option Str :=
  (m.find? (fun e => e.1 = k)).map (fun e => e.2)

/-- `expectation.get(fontpath.name, expectation["default"])`: Python
evaluates the fallback argument `expectation["default"]` before the
`get` call, so a mapping without a `"default"` key raises `KeyError`
even when the font's name is present. -/
def resolveExpectation (fontName : String) : Expectation → Except String Str
  | .lit s => .ok s
  | .perFont m =>
    match lookupKey m "default" with
    | none => .error "KeyError: default"
    | some d => .ok ((lookupKey m fontName).getD d)

/-- The regression-relevant fields of a test case. -/
structure RegressionTest where
  input : Str
  expectation : Expectation
deriving DecidableEq, Repr

abbrev RegressionFailure := RegressionTest × Str × FakeBuffer × Str

/-- `run_shaping_regression`: resolve the expectation, serialize the
shaped buffer with the glyph-names-only encoding exactly when the
expectation has no `+`, and append the failure tuple on mismatch.
`outputBuf` is `_shape(font, test["input"], parameters)`. -/
def runShapingRegression (font : HBFont) (fontName : String) (test : RegressionTest)
    (outputBuf : FakeBuffer) (failed : List RegressionFailure) :
    Except String (List RegressionFailure) :=
  match resolveExpectation fontName test.expectation with
  | .error e => .error e
  | .ok expectation =>
    let outputSerialized :=
      serializeBuffer font outputBuf (decide ('+' ∉ expectation))
    .ok (if outputSerialized ≠ expectation then
           failed ++ [(test, expectation, outputBuf, outputSerialized)]
         else failed)

/-! ## Forbidden-glyph executor (`run_forbidden_glyph_test`)

For one shaped string the code serializes glyph names only, wraps the
stream as `"|" + serialized + "|"`, and runs `re.findall` with the
pattern `r"\|" + forbidden + r"\|"` (the guards only skip the added
anchors when the pattern itself already starts/ends with the two
characters `\|`).  For a forbidden pattern that is a plain glyph name —
no regex metacharacters, no backslash, no `|` — `findall` finding a match
is exactly literal containment of `|forbidden|` in the wrapped stream,
which is what is embedded. -/

/-- `x` occurs contiguously inside `y`. -/
def occursWithin (x y : Str) : Prop := ∃ s t, s ++ x ++ t = y

/-- The wrapped glyph-name stream `"|" + "|".join(names) + "|"`. -/
def wrappedGlyphNames (names : List Str) : Str := '|' :: (pyJoin ['|'] names ++ ['|'])

/-- One pattern atom of `re` on the fragment the forbidden patterns live
in: `.` matches any character but a newline (DOTALL is off); any other
pattern character matches itself.  The fragment covers patterns built
from plain characters and `.` — on it the regex `\|forbidden\|` is a
fixed-length sequence of single-character matchers, so this is exactly
`re`'s semantics there; quantifiers, classes and the other
metacharacters are outside the embedding's domain. -/
def rxCharMatch (pc c : Char) : Bool :=
  if pc = '.' then decide (c ≠ Char.ofNat 10) else decide (pc = c)

/-- The `re` metacharacters other than `.`: a pattern containing none of
them (and no `.`) is matched purely literally. -/
def rxMeta : Str := ['\\', '^', '$', '*', '+', '?', '{', '}', '[', ']', '(', ')', '|']

/-- A fixed-length pattern matches `s` at position `i`. -/
def rxMatchAt (pat s : Str) (i : Nat) : Bool :=
  decide (i + pat.length ≤ s.length) &&
    (List.range pat.length).all fun k => rxCharMatch (pat.getD k ' ') (s.getD (i + k) ' ')

/-- Truthiness of `re.findall(pat, s)` for a fixed-length pattern: some
position of `s` starts a match. -/
def rxSearch (pat s : Str) : Bool :=
  (List.range (s.length + 1)).any fun i => rxMatchAt pat s i

/-- Whether `run_forbidden_glyph_test` flags the pattern `forbidden`
(not already anchored in `\|`, and within the literal-and-`.` regex
fragment of `rxCharMatch`) against a shaped stream with glyph names
`names`: `re.findall` of the pattern `\|` + forbidden + `\|` over the
`|`-wrapped joined stream. -/
def forbiddenGlyphMatch (forbidden : Str) (names : List Str) : Bool :=
  rxSearch ('|' :: (forbidden ++ ['|'])) (wrappedGlyphNames names)

/-! ## Collision executor (`setup_glyph_collides` / `run_collides_glyph_test`)

The Collidoscope collaborator is abstracted to the calls the executor
makes: glyph derivation, collision pairs (each with `glyph1`/`glyph2`
names) and the overlap drawing. -/

/-- The collision-relevant configuration: `configuration.get("collidoscope")`
(with `none` for an absent or falsy value, matching `if not ...`) and
`configuration.get("direction", "LTR")`. -/
structure CollidesConfig (σ : Type) where
  collidoscope : Option σ
  direction : Option String
deriving DecidableEq, Repr

/-- The `extra_data` dictionary returned by `setup_glyph_collides`: either
the permissive-default settings dictionary
`{"bases": True, "marks": True, "faraway": True, "adjacent_clusters": True}`
— which has no `"collidoscope"` entry — or `{"collidoscope": col}`. -/
inductive CollidesExtraData (χ : Type) where
  | defaults (bases marks faraway adjacent_clusters : Bool)
  | detector (collidoscope : χ)
deriving DecidableEq, Repr

/-- `setup_glyph_collides`: construct a detector from the configured
collision settings, or return the permissive default settings dictionary
when none are given.  `mkCollidoscope` is the external
`Collidoscope(fontpath, configuration, direction=...)` constructor. -/
def setupGlyphCollides {σ χ : Type} (mkCollidoscope : σ → String → χ)
    (configuration : CollidesConfig σ) : CollidesExtraData χ :=
  match configuration.collidoscope with
  | none => .defaults true true true true
  | some cc => .detector (mkCollidoscope cc (configuration.direction.getD "LTR"))

/-- The `col = extra_data["collidoscope"]` lookup: a `KeyError` when the
preparation step returned the defaults dictionary. -/
def extraDataCollidoscope {χ : Type} : CollidesExtraData χ → Except String χ
  | .detector c => .ok c
  | .defaults _ _ _ _ => .error "KeyError: collidoscope"

/-- The external Collidoscope surface used per shaped string: derived
glyphs, collision pairs (`glyph1`/`glyph2`), and the overlap drawing. -/
structure CollidoscopeOps (χ β : Type) where
  get_glyphs : χ → Str → FakeBuffer → β
  has_collisions : χ → β → List (String × String)
  draw_overlaps : χ → β → List (String × String) → String

abbrev CollisionFailure := Str × List String × String × FakeBuffer

/-- The body of `run_collides_glyph_test` for one shaped string: derive
glyphs, compute colliding pairs, format them `glyph1/glyph2`, drop pairs
in the allowed-collisions list, and record a failure when any remain. -/
def collideOneString {χ β : Type} (ops : CollidoscopeOps χ β) (col : χ)
    (allowedCollisions : List String) (shapingText : Str) (outputBuf : FakeBuffer)
    (failed : List CollisionFailure) : List CollisionFailure :=
  let glyphs := ops.get_glyphs col shapingText outputBuf
  let collisions := ops.has_collisions col glyphs
  let bumps := (collisions.map (fun c => c.1 ++ "/" ++ c.2)).filter
    (fun b => b ∉ allowedCollisions)
  if bumps ≠ [] then
    failed ++ [(shapingText, bumps, ops.draw_overlaps col glyphs collisions, outputBuf)]
  else failed

/-- `run_collides_glyph_test`: fetch the detector from `extra_data`
(raising `KeyError` when it is the defaults dictionary), then process the
expanded input strings; `shaped` gives each string's shaped buffer. -/
def runCollidesGlyphTest {χ β : Type} (ops : CollidoscopeOps χ β)
    (extraData : CollidesExtraData χ) (allowedCollisions : List String)
    (strings : List Str) (shaped : Str → FakeBuffer)
    (failed : List CollisionFailure) : Except String (List CollisionFailure) :=
  match extraDataCollidoscope extraData with
  | .error e => .error e
  | .ok col =>
    .ok (strings.foldl
      (fun acc s => collideOneString ops col allowedCollisions s (shaped s) acc) failed)

/-! ## Closed-form description of the runner (for the amended claim C1) -/

/-- A case executes exactly when the filter accepts it, the current font
is not excluded, and a nonempty `only` list contains the font (input
presence is checked separately). -/
def caseRunnable {γ κ : Type} (fontName : String) (testFilter : ShapingTest κ → γ → Bool)
    (config : γ) (t : ShapingTest κ) : Bool :=
  testFilter t config && decide (fontName ∉ t.exclude) &&
    !(decide (t.only ≠ []) && decide (fontName ∉ t.only))

def runnableCases {γ κ : Type} (fontName : String) (testFilter : ShapingTest κ → γ → Bool)
    (config : γ) (tests : List (ShapingTest κ)) : List (ShapingTest κ) :=
  tests.filter (caseRunnable fontName testFilter config)

/-- The failure accumulator one document ends with: the executor folded
over its executing cases. -/
def docFailures {γ κ φ : Type} (fontName : String) (testFilter : ShapingTest κ → γ → Bool)
    (runATest : ShapingTest κ → γ → List φ → List φ) (config : γ)
    (tests : List (ShapingTest κ)) : List φ :=
  (runnableCases fontName testFilter config tests).foldl (fun f t => runATest t config f) []

/-- Modelled from the amended claim C1: per-document emission is governed
by the run-global executed flag.  A document emits nothing when no case
has executed in the run up to and including it; one Pass when some case
has executed so far (in it or an earlier document) and its own failure
accumulator is empty; and the report generator's results otherwise. -/
def runnerEmissionSpec {γ κ φ : Type} (fontName : String)
    (testFilter : ShapingTest κ → γ → Bool)
    (runATest : ShapingTest κ → γ → List φ → List φ)
    (generateReport : γ → String → List φ → List RunResult) :
    List (ShapingDoc γ κ) → Bool → List RunResult
  | [], _ => []
  | d :: rest, ranBefore =>
    match d.content with
    | .ok config tests =>
      let ranHere := ranBefore || !(runnableCases fontName testFilter config tests).isEmpty
      (if ranHere then
         if (docFailures fontName testFilter runATest config tests).isEmpty then
           [(some true, passMessage d.name)]
         else generateReport config d.name (docFailures fontName testFilter runATest config tests)
       else [])
        ++ runnerEmissionSpec fontName testFilter runATest generateReport rest ranHere
    | _ => []

/-- Whether any case of any document executes. -/
def docsExecuteAny {γ κ : Type} (fontName : String) (testFilter : ShapingTest κ → γ → Bool)
    (docs : List (ShapingDoc γ κ)) : Bool :=
  docs.any fun d =>
    match d.content with
    | .ok config tests => !(runnableCases fontName testFilter config tests).isEmpty
    | _ => false

/-- A parsed document all of whose cases carry an `input` key. -/
def docWellFormed {γ κ : Type} (d : ShapingDoc γ κ) : Bool :=
  match d.content with
  | .ok _ tests => tests.all (fun t => t.input.isSome)
  | _ => false

/-- A parsed document none of whose cases the filter accepts. -/
def docNoMatch {γ κ : Type} (testFilter : ShapingTest κ → γ → Bool) (d : ShapingDoc γ κ) : Bool :=
  match d.content with
  | .ok config tests => tests.all (fun t => !testFilter t config)
  | _ => false

/-- A structural defect: invalid JSON, a missing `tests` key, or a
filter-accepted case without an `input` key (the three early returns of
the runner's document loop). -/
def docStructuralDefect {γ κ : Type} (testFilter : ShapingTest κ → γ → Bool)
    (d : ShapingDoc γ κ) : Bool :=
  match d.content with
  | .invalidJson _ => true
  | .missingTests => true
  | .ok config tests => tests.any (fun t => testFilter t config && t.input.isNone)

/-- The rendering `diff` produces when every opcode is `equal` over the
whole string: both lines carry the string verbatim, with no `<ins>` or
`<del>` span. -/
def diffEqualTemplate (s : Str) : Str :=
  "<pre>".toList ++ expectedSpanOpen ++ s ++ spanClose ++ [Char.ofNat 10] ++
    actualSpanOpen ++ s ++ spanClose ++ "</pre>".toList

/-- A character the matcher can align on: neither junk nor popular, so
its positions survive in `b2j`. -/
def visChar (s : Str) (c : Char) : Bool := !smIsJunk c && !smIsPopular s c

/-- The value `newj2len[j]` holds after the self-comparison dynamic
program of `find_longest_match` (with `a = b = s` and region
`[lo, hi)`) has processed `t` rows: the length of the chain ending at row
`lo + t - 1`, column `j`.  Used only to state the loop invariants. -/
def smKRow (s : Str) (lo hi : Nat) : Nat → Nat → Nat
  | 0, _ => 0
  | t + 1, j =>
    if lo ≤ j ∧ j < hi ∧ j < s.length ∧ visChar s (s.getD (lo + t) ' ') = true ∧
        s.getD j ' ' = s.getD (lo + t) ' ' then
      if t = 0 ∨ j = lo then 1 else smKRow s lo hi t (j - 1) + 1
    else 0

/-- A block list that tiles `[lo, hi)` with consecutive diagonal
matching blocks. -/
def diagCover : Nat → Nat → List (Nat × Nat × Nat) → Prop
  | lo, hi, [] => lo = hi
  | lo, hi, b :: rest => b.1 = lo ∧ b.2.1 = lo ∧ diagCover (lo + b.2.2) hi rest

/-- The guard of the `smKRow` recursion: cell `(lo + t, j)` is scanned by
the dynamic program (the row character survives in `b2j`, `j` is one of
its in-region positions). -/
def smCond (s : Str) (lo hi t j : Nat) : Prop :=
  lo ≤ j ∧ j < hi ∧ j < s.length ∧ visChar s (s.getD (lo + t) ' ') = true ∧
    s.getD j ' ' = s.getD (lo + t) ' '

/-- Invariant of the `best` triple during the self-comparison dynamic
program on region `[lo, hi)`: diagonal, within the region, and equal to
the seed when still empty. -/
def smBestInv (lo hi : Nat) (b : Nat × Nat × Nat) : Prop :=
  b.1 = b.2.1 ∧ lo ≤ b.1 ∧ b.1 + b.2.2 ≤ hi ∧ (b.2.2 = 0 → b = (lo, lo, 0))

/-- Dominance invariant: after `t` rows, `best` is at least every chain
length computed so far. -/
def smDom (s : Str) (lo hi t : Nat) (b : Nat × Nat × Nat) : Prop :=
  ∀ u j, u ≤ t → smKRow s lo hi u j ≤ b.2.2

/-! ## Report reduction (`generate_html` / `main`) -/

/-- The `all_pass` reduction of `generate_html`: start at `True`, set to
`False` on every result whose status is `False`. -/
def generateHtmlAllPass (results : List (String × List RunResult)) : Bool :=
  results.foldl
    (fun acc check => check.2.foldl
      (fun a r => if r.1 = some false then false else a) acc)
    true

/-- The process exit status: `sys.exit(main() == False)` exits 1 exactly
when `main` returned `False` (some Fail was seen), else 0. -/
def mainExitStatus (results : List (String × List RunResult)) : Nat :=
  if generateHtmlAllPass results = false then 1 else 0

/-! ## Theorems -/

theorem allPass_foldl_inner (rs : List RunResult) (acc : Bool) :
    rs.foldl (fun a r => if r.1 = some false then false else a) acc =
      (acc && !rs.any (fun r => decide (r.1 = some false))) := by
  induction rs generalizing acc with
  | nil => simp
  | cons r rs ih =>
    simp only [List.foldl_cons, List.any_cons, ih]
    by_cases h : r.1 = some false <;> simp [h]

theorem allPass_eq (results : List (String × List RunResult)) :
    generateHtmlAllPass results =
      !results.any (fun c => c.2.any (fun r => decide (r.1 = some false))) := by
  unfold generateHtmlAllPass
  have main : ∀ (l : List (String × List RunResult)) (acc : Bool),
      l.foldl (fun acc check => check.2.foldl
        (fun a r => if r.1 = some false then false else a) acc) acc =
        (acc && !l.any (fun c => c.2.any (fun r => decide (r.1 = some false)))) := by
    intro l
    induction l with
    | nil => simp
    | cons c cs ih =>
      intro acc
      rw [List.foldl_cons, allPass_foldl_inner, ih, List.any_cons, Bool.not_or,
        Bool.and_assoc]
  simpa using main results true

/-- C9: the overall outcome of a run is success exactly when no result of
any check carries Fail status (Skip results, status `None`, never affect
it), and the process exit status is 0 in that case and 1 when any Fail is
present. -/
theorem c9_overall_success (results : List (String × List RunResult)) :
    (generateHtmlAllPass results = true ↔
      ∀ check ∈ results, ∀ r ∈ check.2, r.1 ≠ some false) ∧
    (mainExitStatus results = 0 ↔
      ∀ check ∈ results, ∀ r ∈ check.2, r.1 ≠ some false) ∧
    (mainExitStatus results = 1 ↔
      ∃ check ∈ results, ∃ r ∈ check.2, r.1 = some false) := by
  have hfail : generateHtmlAllPass results = false ↔
      ∃ check ∈ results, ∃ r ∈ check.2, r.1 = some false := by
    rw [allPass_eq, Bool.not_eq_false']
    rw [List.any_eq_true]
    constructor
    · rintro ⟨c, hc, hcany⟩
      rw [List.any_eq_true] at hcany
      obtain ⟨r, hr, hrf⟩ := hcany
      exact ⟨c, hc, r, hr, of_decide_eq_true hrf⟩
    · rintro ⟨c, hc, r, hr, hrf⟩
      exact ⟨c, hc, List.any_eq_true.mpr ⟨r, hr, decide_eq_true hrf⟩⟩
  have hiff : generateHtmlAllPass results = true ↔
      ∀ check ∈ results, ∀ r ∈ check.2, r.1 ≠ some false := by
    constructor
    · intro htrue check hc r hr hrf
      have hf : generateHtmlAllPass results = false := hfail.mpr ⟨check, hc, r, hr, hrf⟩
      rw [htrue] at hf
      simp at hf
    · intro hall
      cases hh : generateHtmlAllPass results
      · exfalso
        obtain ⟨c, hc, r, hr, hrf⟩ := hfail.mp hh
        exact hall c hc r hr hrf
      · rfl
  refine ⟨hiff, ?_, ?_⟩
  · unfold mainExitStatus
    constructor
    · intro h0
      by_cases h : generateHtmlAllPass results = false
      · rw [if_pos h] at h0
        exact absurd h0 one_ne_zero
      · have htrue : generateHtmlAllPass results = true := by
          cases hh : generateHtmlAllPass results
          · exact absurd hh h
          · rfl
        exact hiff.mp htrue
    · intro hall
      rw [if_neg (by rw [hiff.mpr hall]; simp)]
  · unfold mainExitStatus
    constructor
    · intro h1
      by_cases h : generateHtmlAllPass results = false
      · exact hfail.mp h
      · rw [if_neg h] at h1
        exact absurd h1.symm one_ne_zero
    · intro hex
      rw [if_pos (hfail.mpr hex)]

/-- C10: a regression case whose expectation is a per-font mapping
containing neither the current font's file name nor a `"default"` key
makes the executor raise an uncaught `KeyError` (an `Except.error`
escaping `run_shaping_regression`), instead of producing a structural
Fail result. -/
theorem c10_perfont_keyerror (font : HBFont) (fontName : String)
    (test : RegressionTest) (outputBuf : FakeBuffer)
    (failed : List RegressionFailure) (m : List (String × Str))
    (hexp : test.expectation = .perFont m)
    (hfont : lookupKey m fontName = none)
    (hdef : lookupKey m "default" = none) :
    runShapingRegression font fontName test outputBuf failed =
      .error "KeyError: default" := by
  unfold runShapingRegression resolveExpectation
  rw [hexp]
  simp [hdef]

theorem c10_witness :
    lookupKey [] "f.ttf" = none ∧
    runShapingRegression ⟨fun _ => none, fun _ => []⟩ "f.ttf" ⟨[], .perFont []⟩
      ⟨[], []⟩ [] = .error "KeyError: default" :=
  ⟨rfl, c10_perfont_keyerror _ _ _ _ _ [] rfl rfl rfl⟩

/-- C4 (code bug): when the configuration gives no collision settings,
`setup_glyph_collides` returns the permissive default settings dictionary
`{"bases": True, "marks": True, "faraway": True, "adjacent_clusters": True}`,
which carries no `"collidoscope"` entry — so `run_collides_glyph_test`'s
`extra_data["collidoscope"]` raises `KeyError` on every case instead of
running with a permissive default detector, contradicting the claim that
the error branch is unreachable. -/
theorem c4_missing_detector {σ χ β : Type} (mk : σ → String → χ)
    (ops : CollidoscopeOps χ β) (allowed : List String) (strings : List Str)
    (shaped : Str → FakeBuffer) (failed : List CollisionFailure)
    (conf : CollidesConfig σ) (hnone : conf.collidoscope = none) :
    setupGlyphCollides mk conf = .defaults true true true true ∧
    runCollidesGlyphTest ops (setupGlyphCollides mk conf) allowed strings shaped failed =
      .error "KeyError: collidoscope" := by
  unfold setupGlyphCollides
  rw [hnone]
  exact ⟨rfl, rfl⟩

theorem c4_witness :
    setupGlyphCollides (fun (_ : Unit) (_ : String) => ())
        (⟨none, none⟩ : CollidesConfig Unit) = .defaults true true true true ∧
    runCollidesGlyphTest
      (⟨fun _ _ _ => (), fun _ _ => [], fun _ _ _ => ""⟩ : CollidoscopeOps Unit Unit)
      (setupGlyphCollides (fun (_ : Unit) (_ : String) => ())
        (⟨none, none⟩ : CollidesConfig Unit)) [] [['x']]
      (fun _ => ⟨[], []⟩) [] = .error "KeyError: collidoscope" :=
  c4_missing_detector _ _ _ _ _ _ _ rfl

theorem runShapingRegression_ok (font : HBFont) (fontName : String)
    (test : RegressionTest) (outputBuf : FakeBuffer)
    (failed : List RegressionFailure) (exp : Str)
    (hres : resolveExpectation fontName test.expectation = .ok exp) :
    runShapingRegression font fontName test outputBuf failed =
      .ok (if serializeBuffer font outputBuf (decide ('+' ∉ exp)) ≠ exp then
             failed ++ [(test, exp, outputBuf,
               serializeBuffer font outputBuf (decide ('+' ∉ exp)))]
           else failed) := by
  unfold runShapingRegression
  rw [hres]

/-- C5 (counterexample): the claim says the expectation is resolved from a
per-font mapping "by the current font's name with fallback to its default
key", but Python evaluates `expectation["default"]` eagerly — so for a
mapping that does contain the current font's name and no `"default"` key
the executor raises `KeyError` instead of resolving to the mapped value. -/
theorem c5_counterexample :
    lookupKey [("f.ttf", ['x'])] "f.ttf" = some ['x'] ∧
    runShapingRegression ⟨fun _ => none, fun _ => []⟩ "f.ttf"
      ⟨[], .perFont [("f.ttf", ['x'])]⟩ ⟨[], []⟩ [] = .error "KeyError: default" := by
  exact ⟨rfl, rfl⟩

/-- C5 (amended): a per-font expectation mapping must always carry a
`"default"` entry (it is evaluated eagerly); given one, resolution is by
the current font's name with fallback to the default.  The shaped result
is serialized with the glyph-names-only encoding exactly when the
resolved expectation contains no `+`; the serialized actual is compared
byte-for-byte to the expectation, and exactly on mismatch the failure
tuple (case, expectation, shaped result, serialized actual) is
recorded. -/
theorem c5_amended (font : HBFont) (fontName : String) (outputBuf : FakeBuffer)
    (failed : List RegressionFailure) (test : RegressionTest) :
    (∀ s, test.expectation = .lit s →
      resolveExpectation fontName test.expectation = .ok s) ∧
    (∀ m d, test.expectation = .perFont m → lookupKey m "default" = some d →
      resolveExpectation fontName test.expectation =
        .ok ((lookupKey m fontName).getD d)) ∧
    (∀ exp, resolveExpectation fontName test.expectation = .ok exp →
      ((runShapingRegression font fontName test outputBuf failed = .ok failed ↔
          serializeBuffer font outputBuf (decide ('+' ∉ exp)) = exp) ∧
        (serializeBuffer font outputBuf (decide ('+' ∉ exp)) ≠ exp →
          runShapingRegression font fontName test outputBuf failed =
            .ok (failed ++ [(test, exp, outputBuf,
                  serializeBuffer font outputBuf (decide ('+' ∉ exp)))])))) := by
  refine ⟨?_, ?_, ?_⟩
  · intro s hs
    rw [hs]
    rfl
  · intro m d hm hd
    rw [hm]
    simp [resolveExpectation, hd]
  · intro exp hres
    rw [runShapingRegression_ok font fontName test outputBuf failed exp hres]
    by_cases hser : serializeBuffer font outputBuf (decide ('+' ∉ exp)) = exp
    · rw [if_neg (not_not_intro hser)]
      exact ⟨⟨fun _ => hser, fun _ => rfl⟩, fun hne => absurd hser hne⟩
    · rw [if_pos hser]
      refine ⟨⟨?_, fun heq => absurd heq hser⟩, fun _ => rfl⟩
      intro hok
      exfalso
      have hlist := Except.ok.inj hok
      have hlen := congrArg List.length hlist
      simp at hlen

theorem c5_witness :
    resolveExpectation "f.ttf" (Expectation.lit ['x']) = .ok ['x'] ∧
    resolveExpectation "f.ttf" (Expectation.perFont [("default", ['y'])]) = .ok ['y'] :=
  ⟨(c5_amended ⟨fun _ => none, fun _ => []⟩ "f.ttf" ⟨[], []⟩ [] ⟨[], .lit ['x']⟩).1 ['x'] rfl,
   (c5_amended ⟨fun _ => none, fun _ => []⟩ "f.ttf" ⟨[], []⟩ []
      ⟨[], .perFont [("default", ['y'])]⟩).2.1 [("default", ['y'])] ['y'] rfl rfl⟩

theorem runCases_filtered_out {γ κ φ : Type} (fontName : String)
    (testFilter : ShapingTest κ → γ → Bool)
    (runATest : ShapingTest κ → γ → List φ → List φ) (config : γ)
    (tests : List (ShapingTest κ)) (failed : List φ) (ran : Bool)
    (h : ∀ t ∈ tests, testFilter t config = false) :
    runCases fontName testFilter runATest config tests failed ran = (failed, ran, false) := by
  induction tests generalizing failed ran with
  | nil => rfl
  | cons t ts ih =>
    have ht := h t (List.mem_cons_self t ts)
    simp only [runCases, ht]
    simp only [Bool.false_eq_true, not_false_iff, if_true]
    exact ih failed ran (fun x hx => h x (List.mem_cons_of_mem t hx))

theorem runCases_abort_eq {γ κ φ : Type} (fontName : String)
    (testFilter : ShapingTest κ → γ → Bool)
    (runATest : ShapingTest κ → γ → List φ → List φ) (config : γ)
    (tests : List (ShapingTest κ)) (failed : List φ) (ran : Bool) :
    (runCases fontName testFilter runATest config tests failed ran).2.2 =
      tests.any (fun t => testFilter t config && t.input.isNone) := by
  induction tests generalizing failed ran with
  | nil => rfl
  | cons t ts ih =>
    simp only [runCases, List.any_cons]
    by_cases hf : testFilter t config = true
    · cases hinp : t.input with
      | none => simp [hf, hinp]
      | some v =>
        simp only [hf, hinp, Option.isNone_some, Bool.and_false, Bool.false_or,
          not_true, if_false]
        by_cases hx : fontName ∈ t.exclude
        · simp only [if_pos hx]; exact ih failed ran
        · simp only [if_neg hx]
          by_cases ho : t.only ≠ [] ∧ fontName ∉ t.only
          · simp only [if_pos ho]; exact ih failed ran
          · simp only [if_neg ho]; exact ih _ _
    · have hf' : testFilter t config = false := by
        cases hh : testFilter t config
        · rfl
        · exact absurd hh hf
      simp [hf', ih]

theorem runCases_wf {γ κ φ : Type} (fontName : String)
    (testFilter : ShapingTest κ → γ → Bool)
    (runATest : ShapingTest κ → γ → List φ → List φ) (config : γ)
    (tests : List (ShapingTest κ)) (failed : List φ) (ran : Bool)
    (h : ∀ t ∈ tests, t.input.isSome) :
    runCases fontName testFilter runATest config tests failed ran =
      ((runnableCases fontName testFilter config tests).foldl
         (fun f t => runATest t config f) failed,
       ran || !(runnableCases fontName testFilter config tests).isEmpty,
       false) := by
  induction tests generalizing failed ran with
  | nil => simp [runCases, runnableCases]
  | cons t ts ih =>
    have hts : ∀ x ∈ ts, x.input.isSome := fun x hx => h x (List.mem_cons_of_mem t hx)
    have hinp : t.input.isSome := h t (List.mem_cons_self t ts)
    obtain ⟨v, hv⟩ := Option.isSome_iff_exists.mp hinp
    simp only [runCases, runnableCases, List.filter_cons]
    by_cases hf : testFilter t config = true
    · simp only [hf, not_true, if_false, hv]
      by_cases hx : fontName ∈ t.exclude
      · have hcr : caseRunnable fontName testFilter config t = false := by
          simp [caseRunnable, hx]
        simp only [if_pos hx, hcr, Bool.false_eq_true, if_false]
        exact ih failed ran hts
      · simp only [if_neg hx]
        by_cases ho : t.only ≠ [] ∧ fontName ∉ t.only
        · have hcr : caseRunnable fontName testFilter config t = false := by
            simp [caseRunnable, ho.1, ho.2]
          simp only [if_pos ho, hcr, Bool.false_eq_true, if_false]
          exact ih failed ran hts
        · have hcr : caseRunnable fontName testFilter config t = true := by
            push_neg at ho
            by_cases hoe : t.only = []
            · simp [caseRunnable, hf, hx, hoe]
            · simp [caseRunnable, hf, hx, hoe, ho hoe]
          simp only [if_neg ho, hcr, if_true]
          rw [ih (runATest t config failed) true hts]
          simp [runnableCases]
    · have hf' : testFilter t config = false := by
        cases hh : testFilter t config
        · rfl
        · exact absurd hh hf
      have hcr : caseRunnable fontName testFilter config t = false := by
        simp [caseRunnable, hf']
      simp only [hf', Bool.false_eq_true, not_false_iff, if_true, hcr, if_false]
      exact ih failed ran hts

theorem runDocs_spec {γ κ φ : Type} (fontName : String)
    (testFilter : ShapingTest κ → γ → Bool)
    (runATest : ShapingTest κ → γ → List φ → List φ)
    (generateReport : γ → String → List φ → List RunResult)
    (docs : List (ShapingDoc γ κ))
    (h : ∀ d ∈ docs, docWellFormed d = true) (ran : Bool) :
    runDocs fontName testFilter runATest generateReport docs ran =
      (runnerEmissionSpec fontName testFilter runATest generateReport docs ran,
       ran || docsExecuteAny fontName testFilter docs, false) := by
  induction docs generalizing ran with
  | nil => simp [runDocs, runnerEmissionSpec, docsExecuteAny]
  | cons d ds ih =>
    have hd := h d (List.mem_cons_self d ds)
    have hds : ∀ x ∈ ds, docWellFormed x = true :=
      fun x hx => h x (List.mem_cons_of_mem d hx)
    match hc : d.content with
    | .invalidJson e => rw [docWellFormed, hc] at hd; exact absurd hd (by simp)
    | .missingTests => rw [docWellFormed, hc] at hd; exact absurd hd (by simp)
    | .ok config tests =>
      have hinputs : ∀ t ∈ tests, t.input.isSome := by
        rw [docWellFormed, hc] at hd
        intro t ht
        exact List.all_eq_true.mp hd t ht
      simp only [runDocs, runnerEmissionSpec, docsExecuteAny, List.any_cons, hc]
      rw [runCases_wf fontName testFilter runATest config tests [] ran hinputs]
      rw [ih hds]
      simp [docFailures, docsExecuteAny, Bool.or_assoc]

theorem runDocs_nomatch {γ κ φ : Type} (fontName : String)
    (testFilter : ShapingTest κ → γ → Bool)
    (runATest : ShapingTest κ → γ → List φ → List φ)
    (generateReport : γ → String → List φ → List RunResult)
    (docs : List (ShapingDoc γ κ))
    (h : ∀ d ∈ docs, docNoMatch testFilter d = true) :
    runDocs fontName testFilter runATest generateReport docs false = ([], false, false) := by
  induction docs with
  | nil => rfl
  | cons d ds ih =>
    have hd := h d (List.mem_cons_self d ds)
    have hds : ∀ x ∈ ds, docNoMatch testFilter x = true :=
      fun x hx => h x (List.mem_cons_of_mem d hx)
    match hc : d.content with
    | .invalidJson e => rw [docNoMatch, hc] at hd; exact absurd hd (by simp)
    | .missingTests => rw [docNoMatch, hc] at hd; exact absurd hd (by simp)
    | .ok config tests =>
      have hfilters : ∀ t ∈ tests, testFilter t config = false := by
        rw [docNoMatch, hc] at hd
        intro t ht
        have := List.all_eq_true.mp hd t ht
        simpa using this
      simp only [runDocs, hc]
      rw [runCases_filtered_out fontName testFilter runATest config tests [] false hfilters]
      simp [ih hds]

/-- C1 (amended): per-document emission is governed by the run-global
`ran_a_test` flag, not a per-document one.  For a defect-free run, the
runner's output is exactly `runnerEmissionSpec` (a document emits nothing
when no case has executed in the run up to and including it; one Pass
when some case has executed so far — in it *or an earlier document* —
and its own failure accumulator is empty; the report generator's results
otherwise), followed by the two skip rules. -/
theorem c1_amended {γ κ φ : Type} (fontName : String)
    (testFilter : ShapingTest κ → γ → Bool)
    (runATest : ShapingTest κ → γ → List φ → List φ)
    (generateReport : γ → String → List φ → List RunResult)
    (docs : List (ShapingDoc γ κ))
    (h : ∀ d ∈ docs, docWellFormed d = true) :
    runASetOfShapingTests fontName testFilter runATest generateReport (.dir docs) =
      runnerEmissionSpec fontName testFilter runATest generateReport docs false ++
      (if docs.isEmpty then [(none, ⟨"skip", "No test files found."⟩)] else []) ++
      (if docsExecuteAny fontName testFilter docs then []
       else [(none, ⟨"skip", "No applicable tests ran."⟩)]) := by
  simp only [runASetOfShapingTests]
  rw [runDocs_spec fontName testFilter runATest generateReport docs h false]
  simp [List.append_assoc]

/-- C1 (counterexample): with two documents, the first containing one
executing case and the second containing zero cases, the runner emits a
Pass for the second document as well — the claim says a document in which
zero cases executed never yields a Pass. -/
theorem c1_counterexample :
    runASetOfShapingTests "F.ttf"
      (fun (_ : ShapingTest Unit) (_ : Unit) => true)
      (fun _ _ (f : List Unit) => f)
      (fun _ _ _ => [])
      (.dir [⟨"a.json", .ok () [⟨some "x", [], [], ()⟩]⟩,
             ⟨"b.json", .ok () []⟩]) =
      [(some true, passMessage "a.json"), (some true, passMessage "b.json")] := by
  rfl

theorem c1_witness :
    runASetOfShapingTests "F.ttf"
      (fun (_ : ShapingTest Unit) (_ : Unit) => true)
      (fun _ _ (f : List Unit) => f)
      (fun _ _ _ => [])
      (.dir [⟨"a.json", .ok () [⟨some "x", [], [], ()⟩]⟩]) =
      runnerEmissionSpec "F.ttf" (fun (_ : ShapingTest Unit) (_ : Unit) => true)
        (fun _ _ (f : List Unit) => f)
        (fun (_ : Unit) (_ : String) (_ : List Unit) => ([] : List RunResult))
        [⟨"a.json", .ok () [⟨some "x", [], [], ()⟩]⟩] false ++
      (if ([⟨"a.json", .ok () [⟨some "x", [], [], ()⟩]⟩] :
            List (ShapingDoc Unit Unit)).isEmpty then
         [(none, ⟨"skip", "No test files found."⟩)] else []) ++
      (if docsExecuteAny "F.ttf" (fun (_ : ShapingTest Unit) (_ : Unit) => true)
            [⟨"a.json", .ok () [⟨some "x", [], [], ()⟩]⟩] then []
       else [(none, ⟨"skip", "No applicable tests ran."⟩)]) :=
  c1_amended "F.ttf" (fun _ _ => true) (fun _ _ f => f) (fun _ _ _ => [])
    [⟨"a.json", .ok () [⟨some "x", [], [], ()⟩]⟩] (by decide)

/-- C2 (amended): when the configured directory exists but contains zero
test-document files, the check yields *two* Skip results — "No test files
found." and then "No applicable tests ran." (both conditions fire); when
documents are found but zero cases match the check's filter, it yields
exactly one Skip with "No applicable tests ran.". -/
theorem c2_amended {γ κ φ : Type} (fontName : String)
    (testFilter : ShapingTest κ → γ → Bool)
    (runATest : ShapingTest κ → γ → List φ → List φ)
    (generateReport : γ → String → List φ → List RunResult) :
    (runASetOfShapingTests fontName testFilter runATest generateReport
        (.dir ([] : List (ShapingDoc γ κ))) =
      [(none, ⟨"skip", "No test files found."⟩),
       (none, ⟨"skip", "No applicable tests ran."⟩)]) ∧
    (∀ docs : List (ShapingDoc γ κ), docs ≠ [] →
      (∀ d ∈ docs, docNoMatch testFilter d = true) →
      runASetOfShapingTests fontName testFilter runATest generateReport (.dir docs) =
        [(none, ⟨"skip", "No applicable tests ran."⟩)]) := by
  constructor
  · rfl
  · intro docs hne h
    simp only [runASetOfShapingTests]
    rw [runDocs_nomatch fontName testFilter runATest generateReport docs h]
    simp [List.isEmpty_iff, hne]

/-- C2 (counterexample): for an existing-but-empty test directory the
check yields two Skip results, not exactly one. -/
theorem c2_counterexample :
    runASetOfShapingTests "F.ttf"
      (fun (_ : ShapingTest Unit) (_ : Unit) => true)
      (fun _ _ (f : List Unit) => f)
      (fun _ _ _ => [])
      (.dir ([] : List (ShapingDoc Unit Unit))) =
      [(none, ⟨"skip", "No test files found."⟩),
       (none, ⟨"skip", "No applicable tests ran."⟩)] ∧
    (runASetOfShapingTests "F.ttf"
      (fun (_ : ShapingTest Unit) (_ : Unit) => true)
      (fun _ _ (f : List Unit) => f)
      (fun _ _ _ => [])
      (.dir ([] : List (ShapingDoc Unit Unit)))).length ≠ 1 := by
  exact ⟨rfl, by decide⟩

theorem c2_witness :
    runASetOfShapingTests "F.ttf"
      (fun (_ : ShapingTest Unit) (_ : Unit) => false)
      (fun _ _ (f : List Unit) => f)
      (fun _ _ _ => [])
      (.dir [⟨"c.json", .ok () [⟨some "x", [], [], ()⟩]⟩]) =
      [(none, ⟨"skip", "No applicable tests ran."⟩)] :=
  (c2_amended "F.ttf" (fun _ _ => false) (fun _ _ f => f) (fun _ _ _ => [])).2
    [⟨"c.json", .ok () [⟨some "x", [], [], ()⟩]⟩] (by decide) (by decide)

theorem runDocs_abort {γ κ φ : Type} (fontName : String)
    (testFilter : ShapingTest κ → γ → Bool)
    (runATest : ShapingTest κ → γ → List φ → List φ)
    (generateReport : γ → String → List φ → List RunResult)
    (bad : ShapingDoc γ κ) (rest rest' : List (ShapingDoc γ κ))
    (hbad : docStructuralDefect testFilter bad = true) (ran : Bool) :
    runDocs fontName testFilter runATest generateReport (bad :: rest) ran =
      runDocs fontName testFilter runATest generateReport (bad :: rest') ran := by
  match hc : bad.content with
  | .invalidJson e => simp [runDocs, hc]
  | .missingTests => simp [runDocs, hc]
  | .ok config tests =>
    rw [docStructuralDefect, hc] at hbad
    have habort : (runCases fontName testFilter runATest config tests [] ran).2.2 = true := by
      rw [runCases_abort_eq]
      exact hbad
    simp only [runDocs, hc]
    rw [if_pos habort, if_pos habort]


theorem runDocs_indep {γ κ φ : Type} (fontName : String)
    (testFilter : ShapingTest κ → γ → Bool)
    (runATest : ShapingTest κ → γ → List φ → List φ)
    (generateReport : γ → String → List φ → List RunResult)
    (pre : List (ShapingDoc γ κ)) (bad : ShapingDoc γ κ)
    (rest rest' : List (ShapingDoc γ κ))
    (hpre : ∀ d ∈ pre, docStructuralDefect testFilter d = false)
    (hbad : docStructuralDefect testFilter bad = true) (ran : Bool) :
    runDocs fontName testFilter runATest generateReport (pre ++ bad :: rest) ran =
      runDocs fontName testFilter runATest generateReport (pre ++ bad :: rest') ran := by
  induction pre generalizing ran with
  | nil =>
    exact runDocs_abort fontName testFilter runATest generateReport bad rest rest' hbad ran
  | cons d ds ih =>
    have hd := hpre d (List.mem_cons_self d ds)
    have hds : ∀ x ∈ ds, docStructuralDefect testFilter x = false :=
      fun x hx => hpre x (List.mem_cons_of_mem d hx)
    match hc : d.content with
    | .invalidJson e => rw [docStructuralDefect, hc] at hd; exact absurd hd (by simp)
    | .missingTests => rw [docStructuralDefect, hc] at hd; exact absurd hd (by simp)
    | .ok config tests =>
      rw [docStructuralDefect, hc] at hd
      have habort : (runCases fontName testFilter runATest config tests [] ran).2.2 = false := by
        rw [runCases_abort_eq]
        exact hd
      have hne : ¬ ((runCases fontName testFilter runATest config tests [] ran).2.2 = true) := by
        rw [habort]
        exact Bool.false_ne_true
      rw [List.cons_append, List.cons_append]
      simp only [runDocs, hc]
      rw [if_neg hne, if_neg hne]
      rw [ih hds]

/-- C3 (amended): a structural defect inside one test document (invalid
syntax, missing case collection, or a filter-accepted case missing its
input) terminates the *entire remaining run of that check*: the output is
independent of every document discovered after the defective one, so no
results for later documents are ever produced (and the trailing skip
rules are suppressed). -/
theorem c3_amended {γ κ φ : Type} (fontName : String)
    (testFilter : ShapingTest κ → γ → Bool)
    (runATest : ShapingTest κ → γ → List φ → List φ)
    (generateReport : γ → String → List φ → List RunResult)
    (pre : List (ShapingDoc γ κ)) (bad : ShapingDoc γ κ)
    (rest : List (ShapingDoc γ κ))
    (hpre : ∀ d ∈ pre, docStructuralDefect testFilter d = false)
    (hbad : docStructuralDefect testFilter bad = true) :
    runASetOfShapingTests fontName testFilter runATest generateReport
        (.dir (pre ++ bad :: rest)) =
      runASetOfShapingTests fontName testFilter runATest generateReport
        (.dir (pre ++ [bad])) := by
  simp only [runASetOfShapingTests]
  rw [runDocs_indep fontName testFilter runATest generateReport pre bad rest []
    hpre hbad false]
  have hne : (pre ++ bad :: ([] : List (ShapingDoc γ κ))).isEmpty = false := by
    cases pre <;> rfl
  have hne2 : (pre ++ bad :: rest).isEmpty = false := by
    cases pre <;> rfl
  rw [hne, hne2]

/-- C3 (counterexample): a defective first document makes the runner drop
the results of the intact second document entirely — the claim says the
runner continues with the remaining documents. -/
theorem c3_counterexample :
    runASetOfShapingTests "F.ttf"
      (fun (_ : ShapingTest Unit) (_ : Unit) => true)
      (fun _ _ (f : List Unit) => f)
      (fun _ _ _ => [])
      (.dir [⟨"bad.json", .invalidJson "boom"⟩,
             ⟨"good.json", .ok () [⟨some "x", [], [], ()⟩]⟩]) =
      [(some false, invalidJsonMessage "bad.json" "boom")] := by
  rfl

theorem c3_witness :
    runASetOfShapingTests "F.ttf"
      (fun (_ : ShapingTest Unit) (_ : Unit) => true)
      (fun _ _ (f : List Unit) => f)
      (fun (_ : Unit) (_ : String) (_ : List Unit) => ([] : List RunResult))
      (.dir (([] : List (ShapingDoc Unit Unit)) ++
        ⟨"bad.json", .invalidJson "boom"⟩ ::
          [⟨"good.json", .ok () [⟨some "x", [], [], ()⟩]⟩])) =
      runASetOfShapingTests "F.ttf"
        (fun (_ : ShapingTest Unit) (_ : Unit) => true)
        (fun _ _ (f : List Unit) => f)
        (fun (_ : Unit) (_ : String) (_ : List Unit) => ([] : List RunResult))
        (.dir (([] : List (ShapingDoc Unit Unit)) ++
          [⟨"bad.json", .invalidJson "boom"⟩])) :=
  c3_amended "F.ttf" (fun _ _ => true) (fun _ _ f => f) (fun _ _ _ => [])
    [] ⟨"bad.json", .invalidJson "boom"⟩
    [⟨"good.json", .ok () [⟨some "x", [], [], ()⟩]⟩]
    (fun d hd => absurd hd (List.not_mem_nil d)) (by decide)

theorem pipe_split_eq (p : Str) :
    ∀ (u t t' : Str), '|' ∉ p → '|' ∉ u →
      p ++ '|' :: t = u ++ '|' :: t' → p = u ∧ t = t' := by
  induction p with
  | nil =>
    intro u t t' _ hu h
    cases u with
    | nil => simpa using h
    | cons c u' =>
      rw [List.nil_append, List.cons_append] at h
      injection h with hc _
      subst hc
      exact absurd (List.mem_cons_self _ _) hu
  | cons a p' ih =>
    intro u t t' hp hu h
    cases u with
    | nil =>
      rw [List.cons_append, List.nil_append] at h
      injection h with hc _
      subst hc
      exact absurd (List.mem_cons_self _ _) hp
    | cons c u' =>
      rw [List.cons_append, List.cons_append] at h
      injection h with hc hrest
      subst hc
      have hp' : '|' ∉ p' := fun hx => hp (List.mem_cons_of_mem _ hx)
      have hu' : '|' ∉ u' := fun hx => hu (List.mem_cons_of_mem _ hx)
      obtain ⟨h1, h2⟩ := ih u' t t' hp' hu' hrest
      exact ⟨by rw [h1], h2⟩

theorem pipe_first_split (n : Str) :
    ∀ (x z w : Str), '|' ∉ n → x ++ '|' :: z = n ++ '|' :: w →
      (x = n ∧ z = w) ∨ (∃ s2, x = n ++ '|' :: s2 ∧ s2 ++ '|' :: z = w) := by
  induction n with
  | nil =>
    intro x z w _ h
    cases x with
    | nil => left; exact ⟨rfl, by simpa using h⟩
    | cons c s2 =>
      rw [List.cons_append, List.nil_append] at h
      injection h with hc hrest
      subst hc
      right
      exact ⟨s2, rfl, hrest⟩
  | cons a n' ih =>
    intro x z w hn h
    cases x with
    | nil =>
      rw [List.nil_append, List.cons_append] at h
      injection h with hc _
      subst hc
      exact absurd (List.mem_cons_self _ _) hn
    | cons c s2 =>
      rw [List.cons_append, List.cons_append] at h
      injection h with hc hrest
      subst hc
      have hn' : '|' ∉ n' := fun hx => hn (List.mem_cons_of_mem _ hx)
      rcases ih s2 z w hn' hrest with ⟨h1, h2⟩ | ⟨s3, h1, h2⟩
      · left; exact ⟨by rw [h1], h2⟩
      · right; exact ⟨s3, by rw [h1, List.cons_append], h2⟩

theorem occursWithin_wrapped (names : List Str) :
    ∀ (p : Str), '|' ∉ p → (∀ nm ∈ names, '|' ∉ nm) → names ≠ [] →
      (occursWithin ('|' :: (p ++ ['|'])) (wrappedGlyphNames names) ↔ p ∈ names) := by
  induction names with
  | nil => intro p _ _ hne; exact absurd rfl hne
  | cons n rest ih =>
    intro p hp hnames _
    have hn : '|' ∉ n := hnames n (List.mem_cons_self n rest)
    cases rest with
    | nil =>
      have hw : wrappedGlyphNames [n] = '|' :: (n ++ ['|']) := by
        simp [wrappedGlyphNames, pyJoin]
      constructor
      · rintro ⟨s, t, hst⟩
        rw [hw] at hst
        cases s with
        | nil =>
          rw [List.nil_append, List.cons_append] at hst
          injection hst with _ hrest
          rw [List.append_assoc] at hrest
          have h2 : p ++ '|' :: t = n ++ '|' :: [] := by simpa using hrest
          obtain ⟨h3, _⟩ := pipe_split_eq p n t [] hp hn h2
          rw [h3]
          exact List.mem_cons_self n []
        | cons c s' =>
          rw [List.cons_append, List.cons_append] at hst
          injection hst with hc hrest
          subst hc
          rw [List.append_assoc] at hrest
          have h2 : s' ++ '|' :: (p ++ ['|'] ++ t) = n ++ '|' :: [] := by
            simpa [List.append_assoc] using hrest
          rcases pipe_first_split n s' (p ++ ['|'] ++ t) [] hn h2 with ⟨_, h3⟩ | ⟨s2, _, h3⟩
          · exact absurd h3 (by simp)
          · exact absurd h3 (by simp)
      · intro hmem
        have hpn : p = n := by simpa using hmem
        subst hpn
        exact ⟨[], [], by rw [hw]; simp⟩
    | cons m rest' =>
      have hrest : ∀ nm ∈ m :: rest', '|' ∉ nm :=
        fun nm hx => hnames nm (List.mem_cons_of_mem n hx)
      have ihm := ih p hp hrest (by simp)
      have hw : wrappedGlyphNames (n :: m :: rest') =
          '|' :: (n ++ wrappedGlyphNames (m :: rest')) := by
        simp [wrappedGlyphNames, pyJoin, List.append_assoc]
      have hw2 : ∃ w', wrappedGlyphNames (m :: rest') = '|' :: w' := by
        exact ⟨pyJoin ['|'] (m :: rest') ++ ['|'], rfl⟩
      obtain ⟨w', hw'⟩ := hw2
      constructor
      · rintro ⟨s, t, hst⟩
        rw [hw, hw'] at hst
        cases s with
        | nil =>
          rw [List.nil_append, List.cons_append] at hst
          injection hst with _ hrest2
          rw [List.append_assoc] at hrest2
          have h2 : p ++ '|' :: t = n ++ '|' :: w' := by simpa using hrest2
          obtain ⟨h3, _⟩ := pipe_split_eq p n t w' hp hn h2
          rw [h3]
          exact List.mem_cons_self n _
        | cons c s' =>
          rw [List.cons_append, List.cons_append] at hst
          injection hst with hc hrest2
          subst hc
          rw [List.append_assoc] at hrest2
          have h2 : s' ++ '|' :: (p ++ ['|'] ++ t) = n ++ '|' :: w' := by
            simpa [List.append_assoc] using hrest2
          rcases pipe_first_split n s' (p ++ ['|'] ++ t) w' hn h2 with ⟨_, h3⟩ | ⟨s2, _, h3⟩
          · simp only [List.append_assoc, List.singleton_append] at h3
            have hocc : occursWithin ('|' :: (p ++ ['|'])) (wrappedGlyphNames (m :: rest')) := by
              refine ⟨[], t, ?_⟩
              simp [hw', h3, List.append_assoc]
            exact List.mem_cons_of_mem n (ihm.mp hocc)
          · simp only [List.append_assoc, List.singleton_append] at h3
            have hocc : occursWithin ('|' :: (p ++ ['|'])) (wrappedGlyphNames (m :: rest')) := by
              refine ⟨'|' :: s2, t, ?_⟩
              simp [hw', h3, List.append_assoc]
            exact List.mem_cons_of_mem n (ihm.mp hocc)
      · intro hmem
        rcases List.mem_cons.mp hmem with hpn | hmem'
        · subst hpn
          refine ⟨[], w', ?_⟩
          simp [hw, hw', List.append_assoc]
        · obtain ⟨s, t, hst⟩ := ihm.mpr hmem'
          refine ⟨'|' :: (n ++ s), t, ?_⟩
          simp [hw, ← hst, List.append_assoc]

theorem rxMatchAt_literal (pat s : Str) (hpat : ∀ c ∈ pat, c ≠ '.') (i : Nat) :
    rxMatchAt pat s i = true ↔
      i + pat.length ≤ s.length ∧ (s.drop i).take pat.length = pat := by
  rw [rxMatchAt, Bool.and_eq_true, decide_eq_true_eq, List.all_eq_true]
  have hchar : ∀ k, k < pat.length →
      (rxCharMatch (pat.getD k ' ') (s.getD (i + k) ' ') = true ↔
        pat.getD k ' ' = s.getD (i + k) ' ') := by
    intro k hk
    have hmem : pat.getD k ' ' ∈ pat := by
      rw [List.getD_eq_getElem pat ' ' hk]
      exact List.getElem_mem hk
    rw [rxCharMatch, if_neg (hpat _ hmem), decide_eq_true_eq]
  constructor
  · rintro ⟨hlen, hall⟩
    refine ⟨hlen, ?_⟩
    apply List.ext_getElem
    · rw [List.length_take, List.length_drop]
      omega
    · intro k h1 h2
      have hk : k < pat.length := h2
      have hs : i + k < s.length := by omega
      have hp := (hchar k hk).mp (hall k (List.mem_range.mpr hk))
      rw [List.getD_eq_getElem pat ' ' hk, List.getD_eq_getElem s ' ' hs] at hp
      rw [List.getElem_take, List.getElem_drop]
      exact hp.symm
  · rintro ⟨hlen, htake⟩
    refine ⟨hlen, fun k hkmem => ?_⟩
    have hk : k < pat.length := List.mem_range.mp hkmem
    have hs : i + k < s.length := by omega
    refine (hchar k hk).mpr ?_
    have hlen2 : k < ((s.drop i).take pat.length).length := by
      rw [List.length_take, List.length_drop]
      omega
    have hcong : ((s.drop i).take pat.length).getD k ' ' = pat.getD k ' ' :=
      congrArg (fun l => l.getD k ' ') htake
    rw [List.getD_eq_getElem _ ' ' hlen2, List.getElem_take, List.getElem_drop,
      List.getD_eq_getElem pat ' ' hk] at hcong
    rw [List.getD_eq_getElem pat ' ' hk, List.getD_eq_getElem s ' ' hs]
    exact hcong.symm

theorem rxSearch_literal (pat s : Str) (hpat : ∀ c ∈ pat, c ≠ '.') :
    rxSearch pat s = true ↔ occursWithin pat s := by
  rw [rxSearch, List.any_eq_true]
  constructor
  · rintro ⟨i, _, hmatch⟩
    obtain ⟨hlen, htake⟩ := (rxMatchAt_literal pat s hpat i).mp hmatch
    refine ⟨s.take i, (s.drop i).drop pat.length, ?_⟩
    calc s.take i ++ pat ++ (s.drop i).drop pat.length
        = s.take i ++ ((s.drop i).take pat.length ++ (s.drop i).drop pat.length) := by
          rw [htake, List.append_assoc]
      _ = s.take i ++ s.drop i := by rw [List.take_append_drop]
      _ = s := List.take_append_drop i s
  · rintro ⟨u, v, huv⟩
    refine ⟨u.length, List.mem_range.mpr ?_, ?_⟩
    · have := congrArg List.length huv
      simp only [List.length_append] at this
      omega
    · refine (rxMatchAt_literal pat s hpat u.length).mpr ⟨?_, ?_⟩
      · have := congrArg List.length huv
        simp only [List.length_append] at this
        omega
      · rw [← huv, List.append_assoc, List.drop_left, List.take_left]

/-- C6 (amended): a forbidden pattern that is a plain glyph name — free of
`.` and of every other regex metacharacter — is flagged iff it occurs as a
whole delimiter-bounded token of the stream, so plain `a` never flags
`aacute`. -/
theorem c6_amended (forbidden : Str) (names : List Str)
    (hplain : ∀ c ∈ forbidden, c ∉ '.' :: rxMeta)
    (hnames : ∀ nm ∈ names, '|' ∉ nm) (hne : names ≠ []) :
    (forbiddenGlyphMatch forbidden names = true ↔ forbidden ∈ names) := by
  have hp : '|' ∉ forbidden := fun hx =>
    absurd (show ('|' : Char) ∈ '.' :: rxMeta by decide) (hplain '|' hx)
  have hdotfree : ∀ c ∈ ('|' :: (forbidden ++ ['|'])), c ≠ '.' := by
    intro c hc
    rcases List.mem_cons.mp hc with h | h
    · subst h; decide
    · rcases List.mem_append.mp h with h' | h'
      · exact fun hd => absurd (hd ▸ List.mem_cons_self '.' rxMeta) (hplain c h')
      · have : c = '|' := by simpa using h'
        subst this; decide
  rw [show forbiddenGlyphMatch forbidden names =
      rxSearch ('|' :: (forbidden ++ ['|'])) (wrappedGlyphNames names) from rfl]
  rw [rxSearch_literal _ _ hdotfree]
  exact occursWithin_wrapped names forbidden hp hnames hne

theorem c6_witness :
    (∀ c ∈ (['a'] : Str), c ∉ '.' :: rxMeta) ∧
    (forbiddenGlyphMatch ['a'] [['a', 'a', 'c', 'u', 't', 'e'], ['a']] = true ↔
      ['a'] ∈ [['a', 'a', 'c', 'u', 't', 'e'], ['a']]) :=
  ⟨by decide,
   c6_amended ['a'] [['a', 'a', 'c', 'u', 't', 'e'], ['a']]
     (by decide) (by decide) (by decide)⟩

/-- C6 is refuted on dotted glyph names: the code treats the forbidden
pattern as a regex, so the `.` of `alef.fina` also matches the `|`
delimiter.  Against the stream `xalef.finax|alef|fina` the pattern occurs
only as a strict substring of the longer glyph name `xalef.finax`, it is
not a whole token, and yet the check flags it (the regex `\|alef.fina\|`
matches across `alef|fina`). -/
theorem c6_counterexample :
    forbiddenGlyphMatch ['a', 'l', 'e', 'f', '.', 'f', 'i', 'n', 'a']
        [['x', 'a', 'l', 'e', 'f', '.', 'f', 'i', 'n', 'a', 'x'],
         ['a', 'l', 'e', 'f'], ['f', 'i', 'n', 'a']] = true ∧
    (['a', 'l', 'e', 'f', '.', 'f', 'i', 'n', 'a'] : Str) ∉
        [['x', 'a', 'l', 'e', 'f', '.', 'f', 'i', 'n', 'a', 'x'],
         ['a', 'l', 'e', 'f'], ['f', 'i', 'n', 'a']] ∧
    occursWithin ['a', 'l', 'e', 'f', '.', 'f', 'i', 'n', 'a']
        ['x', 'a', 'l', 'e', 'f', '.', 'f', 'i', 'n', 'a', 'x'] :=
  ⟨by decide, by decide, ⟨['x'], ['x'], rfl⟩⟩

theorem digitChar_isDigit (m : Nat) (h : m < 10) : (Nat.digitChar m).isDigit = true := by
  interval_cases m <;> decide

theorem digitVal_digitChar (m : Nat) (h : m < 10) : digitVal (Nat.digitChar m) = m := by
  interval_cases m <;> decide

theorem repNatCore_digits (fuel : Nat) :
    ∀ n, n ≤ fuel → ∀ c ∈ repNatCore fuel n, c.isDigit = true := by
  induction fuel with
  | zero => intro n _ c hc; simp [repNatCore] at hc
  | succ fuel ih =>
    intro n hn c hc
    by_cases h0 : n = 0
    · simp [repNatCore, h0] at hc
    · rw [repNatCore, if_neg h0] at hc
      rcases List.mem_append.mp hc with hc1 | hc2
      · exact ih (n / 10) (by omega) c hc1
      · have : c = Nat.digitChar (n % 10) := by simpa using hc2
        rw [this]
        exact digitChar_isDigit _ (Nat.mod_lt n (by omega))

theorem repNat_digits (n : Nat) : ∀ c ∈ repNat n, c.isDigit = true := by
  intro c hc
  unfold repNat at hc
  by_cases h0 : n = 0
  · rw [if_pos h0] at hc
    have : c = '0' := by simpa using hc
    rw [this]; decide
  · rw [if_neg h0] at hc
    exact repNatCore_digits n n le_rfl c hc

theorem repNat_ne_nil (n : Nat) : repNat n ≠ [] := by
  unfold repNat
  by_cases h0 : n = 0
  · simp [h0]
  · rw [if_neg h0]
    obtain ⟨fuel, rfl⟩ : ∃ fuel, n = fuel + 1 := ⟨n - 1, by omega⟩
    rw [repNatCore, if_neg h0]
    simp

theorem parseNat_foldl (fuel : Nat) :
    ∀ n, n ≤ fuel → ∀ acc,
      (repNatCore fuel n).foldl (fun a c => 10 * a + digitVal c) acc =
        acc * 10 ^ (repNatCore fuel n).length + n := by
  induction fuel with
  | zero =>
    intro n hn acc
    have h0 : n = 0 := by omega
    simp [repNatCore, h0]
  | succ fuel ih =>
    intro n hn acc
    by_cases h0 : n = 0
    · simp [repNatCore, h0]
    · rw [repNatCore, if_neg h0]
      rw [List.foldl_append, ih (n / 10) (by omega) acc]
      simp only [List.foldl_cons, List.foldl_nil, List.length_append, List.length_cons,
        List.length_nil]
      rw [digitVal_digitChar _ (Nat.mod_lt n (by omega))]
      have hmod : 10 * (n / 10) + n % 10 = n := by omega
      rw [pow_succ]
      ring_nf
      omega

theorem parseNatDigits_repNat (n : Nat) : parseNatDigits (repNat n) = n := by
  unfold parseNatDigits repNat
  by_cases h0 : n = 0
  · simp [h0, digitVal]
  · rw [if_neg h0]
    rw [parseNat_foldl n n le_rfl 0]
    simp

theorem takeWhile_digits_append (ds : Str) :
    ∀ rest : Str, (∀ c ∈ ds, c.isDigit = true) →
      (∀ c, rest.head? = some c → c.isDigit = false) →
      (ds ++ rest).takeWhile (·.isDigit) = ds ∧
      (ds ++ rest).dropWhile (·.isDigit) = rest := by
  induction ds with
  | nil =>
    intro rest _ hrest
    cases rest with
    | nil => exact ⟨rfl, rfl⟩
    | cons c r =>
      have hc : c.isDigit = false := hrest c rfl
      simp [List.takeWhile_cons, List.dropWhile_cons, hc]
  | cons d ds' ih =>
    intro rest hds hrest
    have hd : d.isDigit = true := hds d (List.mem_cons_self d ds')
    have hds' : ∀ c ∈ ds', c.isDigit = true := fun c hc => hds c (List.mem_cons_of_mem d hc)
    obtain ⟨h1, h2⟩ := ih rest hds' hrest
    simp [List.takeWhile_cons, List.dropWhile_cons, hd, h1, h2]

theorem parseNatTok_spec (n : Nat) (rest : Str)
    (hrest : ∀ c, rest.head? = some c → c.isDigit = false) :
    parseNatTok (repNat n ++ rest) = some (n, rest) := by
  obtain ⟨h1, h2⟩ := takeWhile_digits_append (repNat n) rest (repNat_digits n) hrest
  unfold parseNatTok
  simp only [h1, h2]
  rw [if_neg (repNat_ne_nil n)]
  rw [parseNatDigits_repNat]

theorem repNat_append_head_digit (n : Nat) (rest : Str) :
    ∀ c, (repNat n ++ rest).head? = some c → c.isDigit = true := by
  intro c hc
  rw [List.head?_append_of_ne_nil _ (repNat_ne_nil n)] at hc
  exact repNat_digits n c (List.mem_of_mem_head? (Option.mem_def.mpr hc))

theorem parseIntTok_spec (i : Int) (rest : Str)
    (hrest : ∀ c, rest.head? = some c → c.isDigit = false) :
    parseIntTok (repInt i ++ rest) = some (i, rest) := by
  by_cases hi : i < 0
  · have hrep : repInt i = '-' :: repNat i.natAbs := by
      unfold repInt; rw [if_pos hi]
    rw [hrep, List.cons_append]
    unfold parseIntTok
    rw [if_pos (show ('-' :: (repNat i.natAbs ++ rest)).head? = some '-' from rfl)]
    simp only [List.tail_cons]
    rw [parseNatTok_spec i.natAbs rest hrest]
    simp only [Option.map_some']
    have : -(i.natAbs : Int) = i := by omega
    rw [this]
  · have hrep : repInt i = repNat i.toNat := by
      unfold repInt; rw [if_neg hi]
    rw [hrep]
    unfold parseIntTok
    rw [if_neg ?hminus]
    case hminus =>
      intro hcontra
      have hd := repNat_append_head_digit i.toNat rest '-' hcontra
      simp at hd
    rw [parseNatTok_spec i.toNat rest hrest]
    simp only [Option.map_some']
    have : (i.toNat : Int) = i := by omega
    rw [this]

theorem head_not_digit_cons (c : Char) (h : c.isDigit = false) (r : Str) :
    ∀ x, (c :: r).head? = some x → x.isDigit = false := by
  intro x hx
  rw [List.head?_cons] at hx
  injection hx with h1
  rw [← h1]
  exact h

theorem head_not_digit_nil :
    ∀ x : Char, ([] : Str).head? = some x → x.isDigit = false := by
  intro x hx
  simp at hx

theorem parseAfterEq_noOff (cl : Nat) (adv : Int) :
    parseAfterEq (repNat cl ++ '+' :: repInt adv) = some (cl, 0, 0, adv) := by
  have h1 := parseNatTok_spec cl ('+' :: repInt adv) (head_not_digit_cons '+' (by decide) _)
  have h2 : parseIntTok (repInt adv ++ []) = some (adv, []) :=
    parseIntTok_spec adv [] head_not_digit_nil
  rw [List.append_nil] at h2
  unfold parseAfterEq
  rw [h1]
  simp [h2]

theorem parseAfterEq_off (cl : Nat) (xo yo adv : Int) :
    parseAfterEq (repNat cl ++ '@' :: (repInt xo ++ ',' :: (repInt yo ++ '+' :: repInt adv))) =
      some (cl, xo, yo, adv) := by
  have h1 := parseNatTok_spec cl ('@' :: (repInt xo ++ ',' :: (repInt yo ++ '+' :: repInt adv)))
    (head_not_digit_cons '@' (by decide) _)
  have h2 := parseIntTok_spec xo (',' :: (repInt yo ++ '+' :: repInt adv))
    (head_not_digit_cons ',' (by decide) _)
  have h3 := parseIntTok_spec yo ('+' :: repInt adv)
    (head_not_digit_cons '+' (by decide) _)
  have h4 : parseIntTok (repInt adv ++ []) = some (adv, []) :=
    parseIntTok_spec adv [] head_not_digit_nil
  rw [List.append_nil] at h4
  unfold parseAfterEq
  rw [h1]
  simp [h2, h3, h4]

theorem findEqSplit_none (s : Str) (h : '=' ∉ s) : findEqSplit s = none := by
  induction s with
  | nil => rfl
  | cons c cs ih =>
    have hc : c ≠ '=' := fun hx => h (hx ▸ List.mem_cons_self c cs)
    have hcs : '=' ∉ cs := fun hx => h (List.mem_cons_of_mem c hx)
    rw [findEqSplit, ih hcs]
    rw [if_neg hc]

theorem findEqSplit_split (nm : Str) (rest : Str) (r : Nat × Int × Int × Int)
    (hrest : '=' ∉ rest) (hr : parseAfterEq rest = some r) :
    findEqSplit (nm ++ '=' :: rest) = some ⟨nm, r.1, r.2.1, r.2.2.1, r.2.2.2⟩ := by
  induction nm with
  | nil =>
    rw [List.nil_append, findEqSplit, findEqSplit_none rest hrest]
    rw [if_pos rfl, hr]
  | cons a nm' ih =>
    rw [List.cons_append, findEqSplit, ih]

theorem repInt_chars (i : Int) : ∀ c ∈ repInt i, c.isDigit = true ∨ c = '-' := by
  intro c hc
  unfold repInt at hc
  by_cases hi : i < 0
  · rw [if_pos hi] at hc
    rcases List.mem_cons.mp hc with h1 | h2
    · right; exact h1
    · left; exact repNat_digits _ c h2
  · rw [if_neg hi] at hc
    left; exact repNat_digits _ c hc

/-- The full-encoding glyph token, written in `name=rest` shape. -/
theorem serializeGlyph_eq (font : HBFont) (info : GlyphInfo) (pos : GlyphPos) :
    serializeGlyph font false info pos =
      displayName font info ++ '=' ::
        (repNat info.cluster ++
          (if pos.x_offset ≠ 0 ∨ pos.y_offset ≠ 0 then
             ('@' :: repInt pos.x_offset) ++ (',' :: repInt pos.y_offset)
           else []) ++ ('+' :: repInt pos.x_advance)) := by
  unfold serializeGlyph
  rw [if_neg (by simp)]
  simp [List.append_assoc]

theorem serializeGlyph_chars (font : HBFont) (info : GlyphInfo) (pos : GlyphPos) :
    ∀ c ∈ serializeGlyph font false info pos,
      c ∈ displayName font info ∨ c.isDigit = true ∨
        c = '=' ∨ c = '@' ∨ c = ',' ∨ c = '+' ∨ c = '-' := by
  intro c hc
  rw [serializeGlyph_eq] at hc
  rcases List.mem_append.mp hc with h1 | h2
  · exact Or.inl h1
  rcases List.mem_cons.mp h2 with h3 | h4
  · exact Or.inr (Or.inr (Or.inl h3))
  rcases List.mem_append.mp h4 with h5 | h6
  · rcases List.mem_append.mp h5 with h7 | h8
    · exact Or.inr (Or.inl (repNat_digits _ c h7))
    · by_cases hoff : pos.x_offset ≠ 0 ∨ pos.y_offset ≠ 0
      · rw [if_pos hoff] at h8
        rcases List.mem_append.mp h8 with h9 | h10
        · rcases List.mem_cons.mp h9 with h11 | h12
          · exact Or.inr (Or.inr (Or.inr (Or.inl h11)))
          · rcases repInt_chars _ c h12 with hd | hm
            · exact Or.inr (Or.inl hd)
            · exact Or.inr (Or.inr (Or.inr (Or.inr (Or.inr (Or.inr hm)))))
        · rcases List.mem_cons.mp h10 with h11 | h12
          · exact Or.inr (Or.inr (Or.inr (Or.inr (Or.inl h11))))
          · rcases repInt_chars _ c h12 with hd | hm
            · exact Or.inr (Or.inl hd)
            · exact Or.inr (Or.inr (Or.inr (Or.inr (Or.inr (Or.inr hm)))))
      · rw [if_neg hoff] at h8
        simp at h8
  · rcases List.mem_cons.mp h6 with h7 | h8
    · exact Or.inr (Or.inr (Or.inr (Or.inr (Or.inr (Or.inl h7)))))
    · rcases repInt_chars _ c h8 with hd | hm
      · exact Or.inr (Or.inl hd)
      · exact Or.inr (Or.inr (Or.inr (Or.inr (Or.inr (Or.inr hm)))))

theorem serializeGlyph_no_pipe (font : HBFont) (info : GlyphInfo) (pos : GlyphPos)
    (hnm : '|' ∉ displayName font info) :
    '|' ∉ serializeGlyph font false info pos := by
  intro hc
  rcases serializeGlyph_chars font info pos '|' hc with h | h | h | h | h | h | h
  · exact hnm h
  all_goals simp at h

theorem serializeGlyph_no_newline (font : HBFont) (info : GlyphInfo) (pos : GlyphPos)
    (hnm : (Char.ofNat 10) ∉ displayName font info) :
    (Char.ofNat 10) ∉ serializeGlyph font false info pos := by
  intro hc
  rcases serializeGlyph_chars font info pos _ hc with h | h | h | h | h | h | h
  · exact hnm h
  all_goals simp at h

theorem serializeRest_no_eq (pos : GlyphPos) (cl : Nat) :
    '=' ∉ (repNat cl ++
      (if pos.x_offset ≠ 0 ∨ pos.y_offset ≠ 0 then
         ('@' :: repInt pos.x_offset) ++ (',' :: repInt pos.y_offset)
       else []) ++ ('+' :: repInt pos.x_advance)) := by
  intro hc
  rcases List.mem_append.mp hc with h1 | h2
  · rcases List.mem_append.mp h1 with h3 | h4
    · exact absurd (repNat_digits cl _ h3) (by decide)
    · by_cases hoff : pos.x_offset ≠ 0 ∨ pos.y_offset ≠ 0
      · rw [if_pos hoff] at h4
        rcases List.mem_append.mp h4 with h5 | h6
        · rcases List.mem_cons.mp h5 with h7 | h8
          · exact absurd h7 (by decide)
          · rcases repInt_chars _ _ h8 with hd | hm
            · exact absurd hd (by decide)
            · exact absurd hm (by decide)
        · rcases List.mem_cons.mp h6 with h7 | h8
          · exact absurd h7 (by decide)
          · rcases repInt_chars _ _ h8 with hd | hm
            · exact absurd hd (by decide)
            · exact absurd hm (by decide)
      · rw [if_neg hoff] at h4
        simp at h4
  · rcases List.mem_cons.mp h2 with h7 | h8
    · exact absurd h7 (by decide)
    · rcases repInt_chars _ _ h8 with hd | hm
      · exact absurd hd (by decide)
      · exact absurd hm (by decide)

theorem parseToken_serializeGlyph (font : HBFont) (info : GlyphInfo) (pos : GlyphPos)
    (hnl : (Char.ofNat 10) ∉ displayName font info) :
    parseToken (serializeGlyph font false info pos) =
      some (parsedOfPair font (info, pos)) := by
  have hnl_tok : (Char.ofNat 10) ∉ serializeGlyph font false info pos :=
    serializeGlyph_no_newline font info pos hnl
  have hlast : ¬ ((serializeGlyph font false info pos).getLast? = some (Char.ofNat 10)) := by
    intro hc
    exact hnl_tok (List.mem_of_mem_getLast? hc)
  have hparse : parseAfterEq (repNat info.cluster ++
      (if pos.x_offset ≠ 0 ∨ pos.y_offset ≠ 0 then
         ('@' :: repInt pos.x_offset) ++ (',' :: repInt pos.y_offset)
       else []) ++ ('+' :: repInt pos.x_advance)) =
      some (info.cluster,
        (if pos.x_offset ≠ 0 ∨ pos.y_offset ≠ 0 then pos.x_offset else 0),
        (if pos.x_offset ≠ 0 ∨ pos.y_offset ≠ 0 then pos.y_offset else 0),
        pos.x_advance) := by
    by_cases hoff : pos.x_offset ≠ 0 ∨ pos.y_offset ≠ 0
    · rw [if_pos hoff, if_pos hoff, if_pos hoff]
      have := parseAfterEq_off info.cluster pos.x_offset pos.y_offset pos.x_advance
      rw [← this]
      congr 1
      simp [List.append_assoc]
    · rw [if_neg hoff, if_neg hoff, if_neg hoff]
      have := parseAfterEq_noOff info.cluster pos.x_advance
      rw [← this]
      congr 1
      simp
  unfold parseToken
  rw [if_neg hlast, if_neg hnl_tok]
  rw [serializeGlyph_eq]
  rw [findEqSplit_split (displayName font info) _ _ (serializeRest_no_eq pos info.cluster) hparse]
  rfl


theorem pySplit_no_sep (sep : Char) (t : Str) (h : sep ∉ t) : pySplit sep t = [t] := by
  induction t with
  | nil => rfl
  | cons c rest ih =>
    have hc : c ≠ sep := fun hx => h (hx ▸ List.mem_cons_self c rest)
    have hrest : sep ∉ rest := fun hx => h (List.mem_cons_of_mem c hx)
    rw [pySplit, if_neg hc, ih hrest]

theorem pySplit_append (sep : Char) (t : Str) (w : Str) (h : sep ∉ t) :
    pySplit sep (t ++ sep :: w) = t :: pySplit sep w := by
  induction t with
  | nil =>
    rw [List.nil_append, pySplit, if_pos rfl]
  | cons c t' ih =>
    have hc : c ≠ sep := fun hx => h (hx ▸ List.mem_cons_self c t')
    have ht' : sep ∉ t' := fun hx => h (List.mem_cons_of_mem c hx)
    rw [List.cons_append, pySplit, if_neg hc, ih ht']

theorem pySplit_pyJoin (sep : Char) (toks : List Str) :
    toks ≠ [] → (∀ t ∈ toks, sep ∉ t) →
      pySplit sep (pyJoin [sep] toks) = toks := by
  induction toks with
  | nil => intro hne _; exact absurd rfl hne
  | cons t rest ih =>
    intro _ h
    have ht : sep ∉ t := h t (List.mem_cons_self t rest)
    cases rest with
    | nil =>
      rw [pyJoin]
      exact pySplit_no_sep sep t ht
    | cons t2 rest' =>
      have hrest : ∀ x ∈ t2 :: rest', sep ∉ x := fun x hx => h x (List.mem_cons_of_mem t hx)
      rw [pyJoin]
      have hassoc : t ++ [sep] ++ pyJoin [sep] (t2 :: rest') =
          t ++ sep :: pyJoin [sep] (t2 :: rest') := by
        simp [List.append_assoc]
      rw [hassoc, pySplit_append sep t _ ht, ih (by simp) hrest]

theorem parseTokens_map {α : Type} (g : α → Str) (gg : α → ParsedGlyph)
    (l : List α) (h : ∀ x ∈ l, parseToken (g x) = some (gg x)) :
    parseTokens (l.map g) = some (l.map gg) := by
  induction l with
  | nil => rfl
  | cons a l' ih =>
    have ha := h a (List.mem_cons_self a l')
    have hl' : ∀ x ∈ l', parseToken (g x) = some (gg x) :=
      fun x hx => h x (List.mem_cons_of_mem a hx)
    rw [List.map_cons, parseTokens, ha, ih hl']
    rfl

/-- The glyph pair parsed back from a serialized glyph token serializes
to the same token again. -/
theorem serializeGlyph_reparse (font : HBFont) (info : GlyphInfo) (pos : GlyphPos)
    (hcons : fontNameConsistent font (displayName font info) = true) :
    serializeGlyph font false
      (glyphFromParsed font (parsedOfPair font (info, pos))).1
      (glyphFromParsed font (parsedOfPair font (info, pos))).2 =
    serializeGlyph font false info pos := by
  have hname : displayName font (glyphFromParsed font (parsedOfPair font (info, pos))).1 =
      displayName font info := by
    simp only [glyphFromParsed, parsedOfPair]
    cases hres : font.glyph_from_string (displayName font info) with
    | none => simp [displayName]
    | some cp =>
      simp only [displayName]
      unfold fontNameConsistent at hcons
      rw [hres] at hcons
      exact of_decide_eq_true hcons
  rw [serializeGlyph_eq, serializeGlyph_eq, hname]
  simp only [glyphFromParsed, parsedOfPair]
  by_cases hoff : pos.x_offset ≠ 0 ∨ pos.y_offset ≠ 0
  · cases hres : font.glyph_from_string (displayName font info) <;>
      simp [hres, hoff]
  · push_neg at hoff
    cases hres : font.glyph_from_string (displayName font info) <;>
      simp [hres, hoff.1, hoff.2]

/-- C7 (amended, matching the spec's own round-trip sentence): for every
nonempty shaped buffer whose glyph display names are free of `|` and
newline and name consistently in the font, parsing the serialized buffer
succeeds and re-serializing yields the same string — serialize → parse →
serialize is the identity on serializer outputs.  (Parse → serialize is
*not* the identity on every grammar-valid string: the serializer always
prints `+advance` and omits `@0,0`, so e.g. `a=0` re-serializes as
`a=0+0`; see the counterexample.) -/
theorem c7_amended (font : HBFont) (buf : FakeBuffer)
    (hlen : buf.glyph_infos.length = buf.glyph_positions.length)
    (hne : buf.glyph_infos ≠ [])
    (h : ∀ ip ∈ buf.glyph_infos.zip buf.glyph_positions,
      '|' ∉ displayName font ip.1 ∧ (Char.ofNat 10) ∉ displayName font ip.1 ∧
      fontNameConsistent font (displayName font ip.1) = true) :
    ∃ buf2, bufferFromString font (serializeBuffer font buf false) = some buf2 ∧
      serializeBuffer font buf2 false = serializeBuffer font buf false := by
  have hpne : buf.glyph_infos.zip buf.glyph_positions ≠ [] := by
    intro hcontra
    have hlz := congrArg List.length hcontra
    rw [List.length_zip, ← hlen, Nat.min_self] at hlz
    simp only [List.length_nil] at hlz
    exact hne (List.length_eq_zero.mp hlz)
  have hsplit : pySplit '|' (pyJoin ['|']
      ((buf.glyph_infos.zip buf.glyph_positions).map
        (fun ip => serializeGlyph font false ip.1 ip.2))) =
      (buf.glyph_infos.zip buf.glyph_positions).map
        (fun ip => serializeGlyph font false ip.1 ip.2) := by
    apply pySplit_pyJoin
    · intro hcontra
      exact hpne (List.map_eq_nil_iff.mp hcontra)
    · intro t ht
      obtain ⟨ip, hip, rfl⟩ := List.mem_map.mp ht
      exact serializeGlyph_no_pipe font ip.1 ip.2 (h ip hip).1
  have hparse : parseTokens ((buf.glyph_infos.zip buf.glyph_positions).map
      (fun ip => serializeGlyph font false ip.1 ip.2)) =
      some ((buf.glyph_infos.zip buf.glyph_positions).map (parsedOfPair font)) := by
    apply parseTokens_map
    intro ip hip
    exact parseToken_serializeGlyph font ip.1 ip.2 (h ip hip).2.1
  refine ⟨⟨((buf.glyph_infos.zip buf.glyph_positions).map (parsedOfPair font)).map
      (fun x => (glyphFromParsed font x).1),
    ((buf.glyph_infos.zip buf.glyph_positions).map (parsedOfPair font)).map
      (fun x => (glyphFromParsed font x).2)⟩, ?_, ?_⟩
  · unfold bufferFromString
    rw [show serializeBuffer font buf false = pyJoin ['|']
      ((buf.glyph_infos.zip buf.glyph_positions).map
        (fun ip => serializeGlyph font false ip.1 ip.2)) from rfl]
    rw [hsplit, hparse]
  · unfold serializeBuffer
    simp only [List.map_map]
    rw [List.zip_map']
    rw [List.map_map]
    congr 1
    apply List.map_congr_left
    intro ip hip
    simp only [Function.comp_apply]
    exact serializeGlyph_reparse font ip.1 ip.2 (h ip hip).2.2

/-- C7 (counterexample): `a=0` is accepted by the glyph-stream grammar
(the `+advance` suffix is optional), but parsing it and re-serializing
yields `a=0+0`, not the same string — so serialize-after-parse is not the
identity on every grammar-valid encoding. -/
theorem c7_counterexample :
    (bufferFromString sampleFont ['a', '=', '0']).map
        (fun b => serializeBuffer sampleFont b false) =
      some ['a', '=', '0', '+', '0'] ∧
    (['a', '=', '0', '+', '0'] : Str) ≠ ['a', '=', '0'] := by
  constructor
  · rfl
  · decide

theorem c7_witness :
    ∃ buf2, bufferFromString sampleFont
        (serializeBuffer sampleFont ⟨[⟨1, 0, none⟩], [⟨0, 0, 500, 0⟩]⟩ false) = some buf2 ∧
      serializeBuffer sampleFont buf2 false =
        serializeBuffer sampleFont ⟨[⟨1, 0, none⟩], [⟨0, 0, 500, 0⟩]⟩ false :=
  c7_amended sampleFont ⟨[⟨1, 0, none⟩], [⟨0, 0, 500, 0⟩]⟩ (by decide) (by decide) (by decide)

theorem smKRow_le (s : Str) (lo hi : Nat) :
    ∀ t j, smKRow s lo hi t j ≤ t := by
  intro t
  induction t with
  | zero => intro j; simp [smKRow]
  | succ t ih =>
    intro j
    rw [smKRow]
    split_ifs with h1 h2
    · omega
    · have := ih (j - 1)
      omega
    · omega

theorem smKRow_below_diag (s : Str) (lo hi : Nat) :
    ∀ t j, j < lo + t →
      smKRow s lo hi (t + 1) j ≤ smKRow s lo hi (j - lo + 1) j := by
  intro t
  induction t with
  | zero =>
    intro j hj
    rw [smKRow]
    rw [if_neg (by omega)]
    exact Nat.zero_le _
  | succ t ih =>
    intro j hj
    by_cases hc : lo ≤ j ∧ j < hi ∧ j < s.length ∧
        visChar s (s.getD (lo + (t + 1)) ' ') = true ∧
        s.getD j ' ' = s.getD (lo + (t + 1)) ' '
    · have hvisj : visChar s (s.getD j ' ') = true := by
        rw [hc.2.2.2.2]
        exact hc.2.2.2.1
      rw [smKRow, if_pos hc]
      by_cases hjlo : j = lo
      · rw [if_pos (Or.inr hjlo)]
        have h0 : j - lo = 0 := by omega
        have hK1 : smKRow s lo hi (j - lo + 1) j = 1 := by
          rw [h0, smKRow]
          rw [if_pos ⟨hc.1, hc.2.1, hc.2.2.1,
            by rw [show lo + 0 = j by omega]; exact hvisj,
            by rw [show lo + 0 = j by omega]⟩]
          rw [if_pos (Or.inl rfl)]
        rw [hK1]
      · rw [if_neg (by omega)]
        obtain ⟨u, hu⟩ : ∃ u, j - lo = u + 1 := ⟨j - lo - 1, by omega⟩
        have hdiag : smKRow s lo hi (j - lo + 1) j =
            smKRow s lo hi (u + 1) (j - 1) + 1 := by
          rw [hu, smKRow]
          rw [if_pos ⟨hc.1, hc.2.1, hc.2.2.1,
            by rw [show lo + (u + 1) = j by omega]; exact hvisj,
            by rw [show lo + (u + 1) = j by omega]⟩]
          rw [if_neg (by omega)]
        have hih := ih (j - 1) (by omega)
        have hstep : j - 1 - lo + 1 = u + 1 := by omega
        rw [hstep] at hih
        rw [hdiag]
        omega
    · rw [smKRow, if_neg hc]
      exact Nat.zero_le _

theorem smKRow_above_diag (s : Str) (lo hi : Nat) (hhi : hi ≤ s.length) :
    ∀ t j, lo + t < j → lo + t < hi →
      smKRow s lo hi (t + 1) j ≤ smKRow s lo hi (t + 1) (lo + t) := by
  intro t
  induction t with
  | zero =>
    intro j hj hrow
    by_cases hc : lo ≤ j ∧ j < hi ∧ j < s.length ∧
        visChar s (s.getD (lo + 0) ' ') = true ∧
        s.getD j ' ' = s.getD (lo + 0) ' '
    · rw [smKRow, if_pos hc, if_pos (Or.inl rfl)]
      rw [smKRow]
      rw [if_pos (by
        refine ⟨by omega, by omega, by omega, hc.2.2.2.1, by rfl⟩)]
      rw [if_pos (Or.inl rfl)]
    · rw [smKRow, if_neg hc]
      exact Nat.zero_le _
  | succ t ih =>
    intro j hj hrow
    by_cases hc : lo ≤ j ∧ j < hi ∧ j < s.length ∧
        visChar s (s.getD (lo + (t + 1)) ' ') = true ∧
        s.getD j ' ' = s.getD (lo + (t + 1)) ' '
    · rw [smKRow, if_pos hc]
      rw [if_neg (by omega)]
      have hih := ih (j - 1) (by omega) (by omega)
      have hdiag : smKRow s lo hi (t + 2) (lo + (t + 1)) =
          smKRow s lo hi (t + 1) (lo + t) + 1 := by
        rw [smKRow]
        rw [if_pos (by
          refine ⟨by omega, hrow, by omega, hc.2.2.2.1, by rfl⟩)]
        rw [if_neg (by omega)]
        rw [show lo + (t + 1) - 1 = lo + t by omega]
      rw [hdiag]
      omega
    · rw [smKRow, if_neg hc]
      exact Nat.zero_le _

theorem smKRow_succ_of_cond (s : Str) (lo hi t j : Nat) (hc : smCond s lo hi t j) :
    smKRow s lo hi (t + 1) j =
      if t = 0 ∨ j = lo then 1 else smKRow s lo hi t (j - 1) + 1 := by
  obtain ⟨h1, h2, h3, h4, h5⟩ := hc
  rw [smKRow, if_pos ⟨h1, h2, h3, h4, h5⟩]

theorem smKRow_succ_of_not_cond (s : Str) (lo hi t j : Nat)
    (hc : ¬ smCond s lo hi t j) : smKRow s lo hi (t + 1) j = 0 := by
  rw [smKRow, if_neg (fun h => hc ⟨h.1, h.2.1, h.2.2.1, h.2.2.2.1, h.2.2.2.2⟩)]

theorem smKRow_out_left (s : Str) (lo hi : Nat) :
    ∀ t j, j < lo → smKRow s lo hi t j = 0 := by
  intro t j hj
  cases t with
  | zero => rfl
  | succ t => exact smKRow_succ_of_not_cond s lo hi t j (fun h => absurd h.1 (by omega))

theorem smKVal_eq (s : Str) (lo hi t j : Nat) (hc : smCond s lo hi t j) :
    (if j = 0 then 0 else smKRow s lo hi t (j - 1)) + 1 =
      smKRow s lo hi (t + 1) j := by
  have h1 : lo ≤ j := hc.1
  rw [smKRow_succ_of_cond s lo hi t j hc]
  by_cases ht : t = 0
  · subst ht
    rw [if_pos (Or.inl rfl)]
    by_cases hj : j = 0
    · rw [if_pos hj]
    · rw [if_neg hj]
      rfl
  · by_cases hjlo : j = lo
    · rw [if_pos (Or.inr hjlo)]
      by_cases hj : j = 0
      · rw [if_pos hj]
      · rw [if_neg hj, smKRow_out_left s lo hi t (j - 1) (by omega)]
    · have hj : j ≠ 0 := by omega
      rw [if_neg hj, if_neg (fun h : t = 0 ∨ j = lo => h.elim ht hjlo)]

theorem smJs_mem (s : Str) (lo hi t : Nat) (x : Nat) :
    x ∈ ((smB2j s (s.getD (lo + t) ' ')).filter
        fun j => decide (lo ≤ j) && decide (j < hi)) ↔
      smCond s lo hi t x := by
  by_cases hj : (smIsJunk (s.getD (lo + t) ' ') || smIsPopular s (s.getD (lo + t) ' ')) = true
  · rw [smB2j, if_pos hj]
    simp only [List.filter_nil, List.not_mem_nil, false_iff]
    intro h
    have hv := h.2.2.2.1
    simp only [visChar, Bool.and_eq_true, Bool.not_eq_true'] at hv
    rcases Bool.or_eq_true_iff.mp hj with h' | h'
    · rw [h'] at hv
      exact absurd hv.1 (by decide)
    · rw [h'] at hv
      exact absurd hv.2 (by decide)
  · have hor : (smIsJunk (s.getD (lo + t) ' ') || smIsPopular s (s.getD (lo + t) ' ')) = false :=
      Bool.of_not_eq_true hj
    have hnj : smIsJunk (s.getD (lo + t) ' ') = false := (Bool.or_eq_false_iff.mp hor).1
    have hnp : smIsPopular s (s.getD (lo + t) ' ') = false := (Bool.or_eq_false_iff.mp hor).2
    rw [smB2j, if_neg hj]
    simp only [smPositions, List.mem_filter, List.mem_range, smCond, visChar, hnj, hnp,
      Bool.not_false, Bool.and_self, decide_eq_true_eq, Bool.and_eq_true]
    tauto

theorem smJs_sorted (s : Str) (c : Char) (lo hi : Nat) :
    ((smB2j s c).filter fun j => decide (lo ≤ j) && decide (j < hi)).Pairwise (· < ·) := by
  apply List.Pairwise.filter
  by_cases hj : (smIsJunk c || smIsPopular s c) = true
  · rw [smB2j, if_pos hj]
    exact List.Pairwise.nil
  · rw [smB2j, if_neg hj]
    exact (List.pairwise_lt_range _).filter _

theorem smInner_acc (f : Nat → Nat) (i : Nat) :
    ∀ (js : List Nat) (acc : Nat → Nat) (best : Nat × Nat × Nat) (x : Nat),
      (smInner f i js acc best).1 x =
        if x ∈ js then (if x = 0 then 0 else f (x - 1)) + 1 else acc x := by
  intro js
  induction js with
  | nil => intro acc best x; simp [smInner]
  | cons j js ih =>
    intro acc best x
    rw [smInner]
    rw [ih]
    by_cases hx : x ∈ js
    · rw [if_pos hx, if_pos (List.mem_cons_of_mem j hx)]
    · rw [if_neg hx]
      by_cases hxj : x = j
      · subst hxj
        simp [List.mem_cons]
      · have : x ∉ j :: js := by
          simp [List.mem_cons, hxj, hx]
        rw [if_neg this, if_neg hxj]

theorem smInner_cons (f : Nat → Nat) (i j : Nat) (js : List Nat) (acc : Nat → Nat)
    (best : Nat × Nat × Nat) :
    smInner f i (j :: js) acc best =
      smInner f i js
        (fun x => if x = j then (if j = 0 then 0 else f (j - 1)) + 1 else acc x)
        (if best.2.2 < (if j = 0 then 0 else f (j - 1)) + 1 then
          (i + 1 - ((if j = 0 then 0 else f (j - 1)) + 1),
            j + 1 - ((if j = 0 then 0 else f (j - 1)) + 1),
            (if j = 0 then 0 else f (j - 1)) + 1)
        else best) := rfl

theorem smInner_best (s : Str) (lo hi t : Nat) (hhi : hi ≤ s.length) :
    ∀ (js : List Nat) (acc : Nat → Nat) (best : Nat × Nat × Nat),
      js.Pairwise (· < ·) →
      (∀ j ∈ js, smCond s lo hi t j) →
      smBestInv lo hi best →
      smDom s lo hi t best →
      (∀ jj, smCond s lo hi t jj → jj ∉ js →
        smKRow s lo hi (t + 1) jj ≤ best.2.2) →
      smBestInv lo hi (smInner (smKRow s lo hi t) (lo + t) js acc best).2 ∧
        smDom s lo hi (t + 1) (smInner (smKRow s lo hi t) (lo + t) js acc best).2 := by
  intro js
  induction js with
  | nil =>
    intro acc best _ _ hinv hdom hrow
    refine ⟨hinv, ?_⟩
    intro u j hu
    rcases Nat.lt_or_ge u (t + 1) with h | h
    · exact hdom u j (by omega)
    · have hu1 : u = t + 1 := by omega
      subst hu1
      by_cases hc : smCond s lo hi t j
      · exact hrow j hc (List.not_mem_nil j)
      · rw [smKRow_succ_of_not_cond s lo hi t j hc]
        exact Nat.zero_le _
  | cons j js ih =>
    intro acc best hsort hcond hinv hdom hrow
    rw [smInner_cons]
    have hcj : smCond s lo hi t j := hcond j (List.mem_cons_self j js)
    have hkeq : (if j = 0 then 0 else smKRow s lo hi t (j - 1)) + 1 =
        smKRow s lo hi (t + 1) j := smKVal_eq s lo hi t j hcj
    rw [hkeq]
    have hcond' : ∀ j' ∈ js, smCond s lo hi t j' :=
      fun j' h => hcond j' (List.mem_cons_of_mem j h)
    by_cases hlt : best.2.2 < smKRow s lo hi (t + 1) j
    · rw [if_pos hlt]
      have hj : j = lo + t := by
        rcases Nat.lt_trichotomy j (lo + t) with hj | hj | hj
        · exfalso
          have h1 : smKRow s lo hi (t + 1) j ≤ smKRow s lo hi (j - lo + 1) j :=
            smKRow_below_diag s lo hi t j hj
          have h2 : smKRow s lo hi (j - lo + 1) j ≤ best.2.2 :=
            hdom (j - lo + 1) j (by have := hcj.1; omega)
          omega
        · exact hj
        · exfalso
          have hjhi : j < hi := hcj.2.1
          have hcd : smCond s lo hi t (lo + t) :=
            ⟨by omega, by omega, by omega, hcj.2.2.2.1, rfl⟩
          have hnotmem : (lo + t) ∉ j :: js := by
            intro hmem
            rcases List.mem_cons.mp hmem with h | h
            · omega
            · have := List.rel_of_pairwise_cons hsort h
              omega
          have h3 : smKRow s lo hi (t + 1) (lo + t) ≤ best.2.2 := hrow (lo + t) hcd hnotmem
          have h4 : smKRow s lo hi (t + 1) j ≤ smKRow s lo hi (t + 1) (lo + t) :=
            smKRow_above_diag s lo hi hhi t j hj (by omega)
          omega
      subst hj
      have hkpos : 1 ≤ smKRow s lo hi (t + 1) (lo + t) := by omega
      have hkle : smKRow s lo hi (t + 1) (lo + t) ≤ t + 1 :=
        smKRow_le s lo hi (t + 1) (lo + t)
      have hjhi : lo + t < hi := hcj.2.1
      refine ih _ _ (List.Pairwise.of_cons hsort) hcond' ⟨rfl,
        by show lo ≤ lo + t + 1 - smKRow s lo hi (t + 1) (lo + t); omega,
        by show lo + t + 1 - smKRow s lo hi (t + 1) (lo + t) +
            smKRow s lo hi (t + 1) (lo + t) ≤ hi
           omega,
        fun h0 => absurd (show smKRow s lo hi (t + 1) (lo + t) = 0 from h0) (by omega)⟩
        (fun u jj hu => le_trans (hdom u jj hu)
          (show best.2.2 ≤ smKRow s lo hi (t + 1) (lo + t) from by omega))
        (fun jj hc hnm => ?_)
      by_cases hjj : jj = lo + t
      · subst hjj
        exact Nat.le_refl _
      · have : jj ∉ (lo + t) :: js := by
          simp [List.mem_cons, hjj, hnm]
        exact le_trans (hrow jj hc this)
          (show best.2.2 ≤ smKRow s lo hi (t + 1) (lo + t) from by omega)
    · rw [if_neg hlt]
      refine ih _ _ (List.Pairwise.of_cons hsort) hcond' hinv hdom
        (fun jj hc hnm => ?_)
      by_cases hjj : jj = j
      · subst hjj
        omega
      · have : jj ∉ j :: js := by
          simp [List.mem_cons, hjj, hnm]
        exact hrow jj hc this

theorem smOuter_cons (a b : Str) (blo bhi i : Nat) (is : List Nat) (j2len : Nat → Nat)
    (best : Nat × Nat × Nat) :
    smOuter a b blo bhi (i :: is) j2len best =
      smOuter a b blo bhi is
        (smInner j2len i ((smB2j b (a.getD i ' ')).filter
          fun j => decide (blo ≤ j) && decide (j < bhi)) (fun _ => 0) best).1
        (smInner j2len i ((smB2j b (a.getD i ' ')).filter
          fun j => decide (blo ≤ j) && decide (j < bhi)) (fun _ => 0) best).2 := rfl

theorem smOuter_inv (s : Str) (lo hi : Nat) (hhi : hi ≤ s.length) :
    ∀ (n t : Nat) (j2len : Nat → Nat) (best : Nat × Nat × Nat),
      j2len = smKRow s lo hi t →
      smBestInv lo hi best →
      smDom s lo hi t best →
      smBestInv lo hi (smOuter s s lo hi (List.range' (lo + t) n) j2len best) ∧
        smDom s lo hi (t + n) (smOuter s s lo hi (List.range' (lo + t) n) j2len best) := by
  intro n
  induction n with
  | zero =>
    intro t j2len best hj2 hinv hdom
    simpa [smOuter] using ⟨hinv, hdom⟩
  | succ n ih =>
    intro t j2len best hj2 hinv hdom
    subst hj2
    rw [List.range'_succ, smOuter_cons]
    have hsorted := smJs_sorted s (s.getD (lo + t) ' ') lo hi
    have hmem : ∀ j ∈ ((smB2j s (s.getD (lo + t) ' ')).filter
        fun j => decide (lo ≤ j) && decide (j < hi)), smCond s lo hi t j :=
      fun j hj => (smJs_mem s lo hi t j).mp hj
    have hrow0 : ∀ jj, smCond s lo hi t jj →
        jj ∉ ((smB2j s (s.getD (lo + t) ' ')).filter
          fun j => decide (lo ≤ j) && decide (j < hi)) →
        smKRow s lo hi (t + 1) jj ≤ best.2.2 :=
      fun jj hc hnm => absurd ((smJs_mem s lo hi t jj).mpr hc) hnm
    have hnew := smInner_best s lo hi t hhi _ (fun _ => 0) best hsorted hmem hinv hdom hrow0
    have hacc : (smInner (smKRow s lo hi t) (lo + t)
        ((smB2j s (s.getD (lo + t) ' ')).filter
          fun j => decide (lo ≤ j) && decide (j < hi)) (fun _ => 0) best).1 =
        smKRow s lo hi (t + 1) := by
      funext x
      rw [smInner_acc]
      by_cases hx : x ∈ (smB2j s (s.getD (lo + t) ' ')).filter
          fun j => decide (lo ≤ j) && decide (j < hi)
      · rw [if_pos hx]
        exact smKVal_eq s lo hi t x ((smJs_mem s lo hi t x).mp hx)
      · rw [if_neg hx]
        exact (smKRow_succ_of_not_cond s lo hi t x
          (fun hc => hx ((smJs_mem s lo hi t x).mpr hc))).symm
    rw [hacc]
    rw [show t + (n + 1) = t + 1 + n from by omega]
    exact ih (t + 1) _ _ rfl hnew.1 hnew.2

theorem smGrowLeftFuel_inv (s : Str) (lo : Nat) (p : Char → Bool) :
    ∀ (fuel besti bestj bestsize : Nat), besti = bestj → lo ≤ besti →
      (smGrowLeftFuel s s lo lo p fuel besti bestj bestsize).1 =
          (smGrowLeftFuel s s lo lo p fuel besti bestj bestsize).2.1 ∧
        lo ≤ (smGrowLeftFuel s s lo lo p fuel besti bestj bestsize).1 ∧
        (smGrowLeftFuel s s lo lo p fuel besti bestj bestsize).1 +
            (smGrowLeftFuel s s lo lo p fuel besti bestj bestsize).2.2 =
          besti + bestsize ∧
        bestsize ≤ (smGrowLeftFuel s s lo lo p fuel besti bestj bestsize).2.2 := by
  intro fuel
  induction fuel with
  | zero =>
    intro besti bestj bestsize hd hlo
    subst hd
    exact ⟨rfl, hlo, rfl, Nat.le_refl _⟩
  | succ fuel ih =>
    intro besti bestj bestsize hd hlo
    subst hd
    rw [smGrowLeftFuel]
    split_ifs with h
    · obtain ⟨h1, h2, h3, h4⟩ := ih (besti - 1) (besti - 1) (bestsize + 1) rfl (by omega)
      have hpos : lo < besti := h.1
      exact ⟨h1, h2, by omega, by omega⟩
    · exact ⟨rfl, hlo, rfl, Nat.le_refl _⟩

theorem smGrowRightFuel_inv (s : Str) (hi : Nat) (p : Char → Bool) :
    ∀ (fuel besti bestj bestsize : Nat), besti + bestsize ≤ hi →
      (smGrowRightFuel s s hi hi p fuel besti bestj bestsize).1 = besti ∧
        (smGrowRightFuel s s hi hi p fuel besti bestj bestsize).2.1 = bestj ∧
        bestsize ≤ (smGrowRightFuel s s hi hi p fuel besti bestj bestsize).2.2 ∧
        besti + (smGrowRightFuel s s hi hi p fuel besti bestj bestsize).2.2 ≤ hi := by
  intro fuel
  induction fuel with
  | zero =>
    intro besti bestj bestsize hb
    exact ⟨rfl, rfl, Nat.le_refl _, hb⟩
  | succ fuel ih =>
    intro besti bestj bestsize hb
    rw [smGrowRightFuel]
    split_ifs with h
    · obtain ⟨h1, h2, h3, h4⟩ := ih besti bestj (bestsize + 1) (by omega)
      exact ⟨h1, h2, by omega, h4⟩
    · exact ⟨rfl, rfl, Nat.le_refl _, hb⟩

theorem smGrowLeftFuel_stuck (a b : Str) (alo blo : Nat) (p : Char → Bool)
    (fuel besti bestj bestsize : Nat) (h : ¬ alo < besti) :
    smGrowLeftFuel a b alo blo p fuel besti bestj bestsize = (besti, bestj, bestsize) := by
  cases fuel with
  | zero => rfl
  | succ fuel => rw [smGrowLeftFuel, if_neg (fun hc => h hc.1)]

theorem smGrowRightFuel_stuck (a b : Str) (ahi bhi : Nat) (p : Char → Bool)
    (fuel besti bestj bestsize : Nat)
    (h : p (b.getD (bestj + bestsize) ' ') = false) :
    smGrowRightFuel a b ahi bhi p fuel besti bestj bestsize = (besti, bestj, bestsize) := by
  cases fuel with
  | zero => rfl
  | succ fuel =>
    rw [smGrowRightFuel, if_neg (fun hc => by rw [hc.2.2.1] at h; exact absurd h (by decide))]

theorem smGrowRightFuel_step (a b : Str) (ahi bhi : Nat) (p : Char → Bool)
    (fuel besti bestj bestsize : Nat)
    (h1 : besti + bestsize < ahi) (h2 : bestj + bestsize < bhi)
    (h3 : p (b.getD (bestj + bestsize) ' ') = true)
    (h4 : a.getD (besti + bestsize) ' ' = b.getD (bestj + bestsize) ' ') :
    smGrowRightFuel a b ahi bhi p (fuel + 1) besti bestj bestsize =
      smGrowRightFuel a b ahi bhi p fuel besti bestj (bestsize + 1) := by
  rw [smGrowRightFuel, if_pos ⟨h1, h2, h3, h4⟩]

theorem smOuter_self (s : Str) (lo hi : Nat) (hlo : lo ≤ hi) (hhi : hi ≤ s.length) :
    smBestInv lo hi (smOuter s s lo hi (List.range' lo (hi - lo)) (fun _ => 0) (lo, lo, 0)) := by
  have hB := smOuter_inv s lo hi hhi (hi - lo) 0 (fun _ => 0) (lo, lo, 0) (funext fun _ => rfl)
    ⟨rfl, Nat.le_refl lo, by show lo + 0 ≤ hi; omega, fun _ => rfl⟩
    (fun u j hu => by
      have hu0 : u = 0 := by omega
      subst hu0
      exact Nat.le_refl 0)
  simpa using hB.1

theorem smGrowLeft_inv (s : Str) (lo : Nat) (p : Char → Bool) (besti bestj bestsize : Nat)
    (hd : besti = bestj) (hlo : lo ≤ besti) :
    (smGrowLeft s s lo lo p besti bestj bestsize).1 =
        (smGrowLeft s s lo lo p besti bestj bestsize).2.1 ∧
      lo ≤ (smGrowLeft s s lo lo p besti bestj bestsize).1 ∧
      (smGrowLeft s s lo lo p besti bestj bestsize).1 +
          (smGrowLeft s s lo lo p besti bestj bestsize).2.2 = besti + bestsize ∧
      bestsize ≤ (smGrowLeft s s lo lo p besti bestj bestsize).2.2 :=
  smGrowLeftFuel_inv s lo p besti besti bestj bestsize hd hlo

theorem smGrowRight_inv (s : Str) (hi : Nat) (p : Char → Bool) (besti bestj bestsize : Nat)
    (hb : besti + bestsize ≤ hi) :
    (smGrowRight s s hi hi p besti bestj bestsize).1 = besti ∧
      (smGrowRight s s hi hi p besti bestj bestsize).2.1 = bestj ∧
      bestsize ≤ (smGrowRight s s hi hi p besti bestj bestsize).2.2 ∧
      besti + (smGrowRight s s hi hi p besti bestj bestsize).2.2 ≤ hi :=
  smGrowRightFuel_inv s hi p (hi - (besti + bestsize)) besti bestj bestsize hb

theorem smGrowLeft_stuck (a b : Str) (alo blo : Nat) (p : Char → Bool)
    (besti bestj bestsize : Nat) (h : ¬ alo < besti) :
    smGrowLeft a b alo blo p besti bestj bestsize = (besti, bestj, bestsize) :=
  smGrowLeftFuel_stuck a b alo blo p besti besti bestj bestsize h

theorem smGrowRight_stuck (a b : Str) (ahi bhi : Nat) (p : Char → Bool)
    (besti bestj bestsize : Nat) (h : p (b.getD (bestj + bestsize) ' ') = false) :
    smGrowRight a b ahi bhi p besti bestj bestsize = (besti, bestj, bestsize) :=
  smGrowRightFuel_stuck a b ahi bhi p (ahi - (besti + bestsize)) besti bestj bestsize h

theorem smGrowRight_self_grow (s : Str) (hi lo : Nat) (p : Char → Bool)
    (hlh : lo < hi) (hp : p (s.getD lo ' ') = true) :
    (smGrowRight s s hi hi p lo lo 0).1 = lo ∧
      (smGrowRight s s hi hi p lo lo 0).2.1 = lo ∧
      1 ≤ (smGrowRight s s hi hi p lo lo 0).2.2 ∧
      lo + (smGrowRight s s hi hi p lo lo 0).2.2 ≤ hi := by
  obtain ⟨f, hf⟩ : ∃ f, hi - (lo + 0) = f + 1 := ⟨hi - lo - 1, by omega⟩
  have key : smGrowRight s s hi hi p lo lo 0 = smGrowRightFuel s s hi hi p f lo lo 1 := by
    show smGrowRightFuel s s hi hi p (hi - (lo + 0)) lo lo 0 =
      smGrowRightFuel s s hi hi p f lo lo 1
    rw [hf]
    exact smGrowRightFuel_step s s hi hi p f lo lo 0 (by omega) (by omega) hp rfl
  rw [key]
  exact smGrowRightFuel_inv s hi p f lo lo 1 (by omega)

theorem findLongestMatch_self (s : Str) (lo hi : Nat) (hlo : lo ≤ hi) (hhi : hi ≤ s.length) :
    (findLongestMatch s s lo hi lo hi).1 = (findLongestMatch s s lo hi lo hi).2.1 ∧
      lo ≤ (findLongestMatch s s lo hi lo hi).1 ∧
      (findLongestMatch s s lo hi lo hi).1 + (findLongestMatch s s lo hi lo hi).2.2 ≤ hi ∧
      (lo < hi → 1 ≤ (findLongestMatch s s lo hi lo hi).2.2) := by
  obtain ⟨hd, hBlo, hBbd, hBz⟩ := smOuter_self s lo hi hlo hhi
  simp only [findLongestMatch]
  set B := smOuter s s lo hi (List.range' lo (hi - lo)) (fun _ => 0) (lo, lo, 0) with hB
  obtain ⟨h11, h12, h13, h14⟩ :=
    smGrowLeft_inv s lo (fun c => !smIsBJunk s c) B.1 B.2.1 B.2.2 hd hBlo
  set E1 := smGrowLeft s s lo lo (fun c => !smIsBJunk s c) B.1 B.2.1 B.2.2 with hE1
  obtain ⟨h21, h22, h23, h24⟩ :=
    smGrowRight_inv s hi (fun c => !smIsBJunk s c) E1.1 E1.2.1 E1.2.2 (by omega)
  set E2 := smGrowRight s s hi hi (fun c => !smIsBJunk s c) E1.1 E1.2.1 E1.2.2 with hE2
  have hd2 : E2.1 = E2.2.1 := by rw [h21, h22]; exact h11
  have hlo2 : lo ≤ E2.1 := by rw [h21]; exact h12
  obtain ⟨h31, h32, h33, h34⟩ :=
    smGrowLeft_inv s lo (fun c => smIsBJunk s c) E2.1 E2.2.1 E2.2.2 hd2 hlo2
  set E3 := smGrowLeft s s lo lo (fun c => smIsBJunk s c) E2.1 E2.2.1 E2.2.2 with hE3
  obtain ⟨h41, h42, h43, h44⟩ :=
    smGrowRight_inv s hi (fun c => smIsBJunk s c) E3.1 E3.2.1 E3.2.2 (by omega)
  refine ⟨by rw [h41, h42]; exact h31, by rw [h41]; exact h32, by rw [h41]; exact h44, ?_⟩
  intro hlh
  by_cases hz : B.2.2 = 0
  · have hBeq : B = (lo, lo, 0) := hBz hz
    have hE1v : E1 = (lo, lo, 0) := by
      rw [hE1, hBeq]
      exact smGrowLeft_stuck s s lo lo _ lo lo 0 (by omega)
    by_cases hbj : smIsBJunk s (s.getD lo ' ') = true
    · have hE2v : E2 = (lo, lo, 0) := by
        rw [hE2, hE1v]
        refine smGrowRight_stuck s s hi hi _ lo lo 0 ?_
        show (!smIsBJunk s (s.getD lo ' ')) = false
        rw [hbj]
        rfl
      have hE3v : E3 = (lo, lo, 0) := by
        rw [hE3, hE2v]
        exact smGrowLeft_stuck s s lo lo _ lo lo 0 (by omega)
      rw [hE3v]
      exact (smGrowRight_self_grow s hi lo (fun c => smIsBJunk s c) hlh hbj).2.2.1
    · have hp1 : (fun c => !smIsBJunk s c) (s.getD lo ' ') = true := by
        simp only [Bool.not_eq_true] at hbj
        show (!smIsBJunk s (s.getD lo ' ')) = true
        rw [hbj]
        rfl
      have h1le : 1 ≤ E2.2.2 := by
        rw [hE2, hE1v]
        exact (smGrowRight_self_grow s hi lo (fun c => !smIsBJunk s c) hlh hp1).2.2.1
      omega
  · omega

theorem diagCover_le :
    ∀ (bs : List (Nat × Nat × Nat)) (lo hi : Nat), diagCover lo hi bs → lo ≤ hi := by
  intro bs
  induction bs with
  | nil => intro lo hi h; exact Nat.le_of_eq h
  | cons b rest ih =>
    intro lo hi h
    have := ih (lo + b.2.2) hi h.2.2
    omega

theorem diagCover_append :
    ∀ (bs : List (Nat × Nat × Nat)) (lo mid hi : Nat) (rest : List (Nat × Nat × Nat)),
      diagCover lo mid bs → diagCover mid hi rest → diagCover lo hi (bs ++ rest) := by
  intro bs
  induction bs with
  | nil =>
    intro lo mid hi rest h1 h2
    rw [List.nil_append]
    rw [show lo = mid from h1]
    exact h2
  | cons b bs ih =>
    intro lo mid hi rest h1 h2
    rw [List.cons_append]
    exact ⟨h1.1, h1.2.1, ih _ _ _ _ h1.2.2 h2⟩

theorem matchingBlocksAux_succ (a b : Str) (fuel alo ahi blo bhi : Nat) :
    matchingBlocksAux a b (fuel + 1) alo ahi blo bhi =
      if (findLongestMatch a b alo ahi blo bhi).2.2 = 0 then []
      else
        matchingBlocksAux a b fuel alo (findLongestMatch a b alo ahi blo bhi).1 blo
            (findLongestMatch a b alo ahi blo bhi).2.1 ++
          [findLongestMatch a b alo ahi blo bhi] ++
          matchingBlocksAux a b fuel
            ((findLongestMatch a b alo ahi blo bhi).1 +
              (findLongestMatch a b alo ahi blo bhi).2.2) ahi
            ((findLongestMatch a b alo ahi blo bhi).2.1 +
              (findLongestMatch a b alo ahi blo bhi).2.2) bhi := by
  simp only [matchingBlocksAux]

set_option maxHeartbeats 1000000 in
theorem matchingBlocksAux_self (s : Str) :
    ∀ (fuel lo hi : Nat), lo ≤ hi → hi ≤ s.length → hi - lo < fuel →
      diagCover lo hi (matchingBlocksAux s s fuel lo hi lo hi) := by
  intro fuel
  induction fuel with
  | zero =>
    intro lo hi h1 h2 h3
    omega
  | succ fuel ih =>
    intro lo hi h1 h2 h3
    rw [matchingBlocksAux_succ]
    obtain ⟨hfd, hflo, hfbd, hfpos⟩ := findLongestMatch_self s lo hi h1 h2
    by_cases hz : (findLongestMatch s s lo hi lo hi).2.2 = 0
    · rw [if_pos hz]
      show lo = hi
      rcases Nat.lt_or_ge lo hi with h | h
      · exact absurd (hfpos h) (by omega)
      · omega
    · rw [if_neg hz, ← hfd, List.append_assoc]
      refine diagCover_append _ lo (findLongestMatch s s lo hi lo hi).1 hi _
        (ih lo (findLongestMatch s s lo hi lo hi).1 hflo (by omega) (by omega)) ?_
      refine diagCover_append [findLongestMatch s s lo hi lo hi]
        (findLongestMatch s s lo hi lo hi).1
        ((findLongestMatch s s lo hi lo hi).1 + (findLongestMatch s s lo hi lo hi).2.2) hi _
        ⟨rfl, hfd.symm, rfl⟩
        (ih ((findLongestMatch s s lo hi lo hi).1 + (findLongestMatch s s lo hi lo hi).2.2)
          hi hfbd h2 (by omega))

theorem mergeFold :
    ∀ (bs : List (Nat × Nat × Nat)) (lo hi d k : Nat),
      diagCover lo hi bs → d + k = lo →
      bs.foldl (fun st bl =>
        if st.1.1 + st.1.2.2 = bl.1 ∧ st.1.2.1 + st.1.2.2 = bl.2.1 then
          ((st.1.1, st.1.2.1, st.1.2.2 + bl.2.2), st.2)
        else
          ((bl.1, bl.2.1, bl.2.2), st.2 ++ if st.1.2.2 ≠ 0 then [st.1] else []))
        ((d, d, k), ([] : List (Nat × Nat × Nat))) =
      ((d, d, k + (hi - lo)), ([] : List (Nat × Nat × Nat))) := by
  intro bs
  induction bs with
  | nil =>
    intro lo hi d k hc hlo
    have heq : lo = hi := hc
    rw [List.foldl_nil, show hi - lo = 0 from by omega]
    rfl
  | cons b bs ih =>
    intro lo hi d k hc hlo
    obtain ⟨hb1, hb2, hbrest⟩ := hc
    have hle := diagCover_le bs (lo + b.2.2) hi hbrest
    rw [List.foldl_cons]
    rw [if_pos (show d + k = b.1 ∧ d + k = b.2.1 from ⟨by omega, by omega⟩)]
    have hrec := ih (lo + b.2.2) hi d (k + b.2.2) hbrest (by omega)
    rw [hrec, show k + b.2.2 + (hi - (lo + b.2.2)) = k + (hi - lo) from by omega]

theorem mergeAdjacent_eq (la lb : Nat) (blocks : List (Nat × Nat × Nat)) :
    mergeAdjacent la lb blocks =
      (blocks.foldl (fun st bl =>
        if st.1.1 + st.1.2.2 = bl.1 ∧ st.1.2.1 + st.1.2.2 = bl.2.1 then
          ((st.1.1, st.1.2.1, st.1.2.2 + bl.2.2), st.2)
        else
          ((bl.1, bl.2.1, bl.2.2), st.2 ++ if st.1.2.2 ≠ 0 then [st.1] else []))
        ((0, 0, 0), ([] : List (Nat × Nat × Nat)))).2 ++
      (if (blocks.foldl (fun st bl =>
        if st.1.1 + st.1.2.2 = bl.1 ∧ st.1.2.1 + st.1.2.2 = bl.2.1 then
          ((st.1.1, st.1.2.1, st.1.2.2 + bl.2.2), st.2)
        else
          ((bl.1, bl.2.1, bl.2.2), st.2 ++ if st.1.2.2 ≠ 0 then [st.1] else []))
        ((0, 0, 0), ([] : List (Nat × Nat × Nat)))).1.2.2 ≠ 0 then
        [(blocks.foldl (fun st bl =>
          if st.1.1 + st.1.2.2 = bl.1 ∧ st.1.2.1 + st.1.2.2 = bl.2.1 then
            ((st.1.1, st.1.2.1, st.1.2.2 + bl.2.2), st.2)
          else
            ((bl.1, bl.2.1, bl.2.2), st.2 ++ if st.1.2.2 ≠ 0 then [st.1] else []))
          ((0, 0, 0), ([] : List (Nat × Nat × Nat)))).1]
      else []) ++ [(la, lb, 0)] := rfl

set_option maxHeartbeats 1600000 in
theorem getMatchingBlocks_self (s : Str) :
    getMatchingBlocks s s =
      if s.length = 0 then [(s.length, s.length, 0)]
      else [(0, 0, s.length), (s.length, s.length, 0)] := by
  have hcov := matchingBlocksAux_self s (s.length + s.length + 1) 0 s.length
    (Nat.zero_le _) (Nat.le_refl _) (by omega)
  have hfold := mergeFold
    (matchingBlocksAux s s (s.length + s.length + 1) 0 s.length 0 s.length)
    0 s.length 0 0 hcov rfl
  unfold getMatchingBlocks
  rw [mergeAdjacent_eq, hfold]
  rw [show (0 : Nat) + (s.length - 0) = s.length from by omega]
  by_cases hn : s.length = 0
  · simp [hn]
  · simp [hn]

theorem getOpcodes_eq (a b : Str) :
    getOpcodes a b =
      ((getMatchingBlocks a b).foldl (fun st bl =>
        ((bl.1 + bl.2.2, bl.2.1 + bl.2.2), st.2 ++
          (if st.1.1 < bl.1 ∧ st.1.2 < bl.2.1 then
            [(SMTag.replace, st.1.1, bl.1, st.1.2, bl.2.1)]
          else if st.1.1 < bl.1 then [(SMTag.delete, st.1.1, bl.1, st.1.2, bl.2.1)]
          else if st.1.2 < bl.2.1 then [(SMTag.insert, st.1.1, bl.1, st.1.2, bl.2.1)]
          else []) ++
          (if bl.2.2 ≠ 0 then
            [(SMTag.equal, bl.1, bl.1 + bl.2.2, bl.2.1, bl.2.1 + bl.2.2)]
          else [])))
        ((0, 0), ([] : List (SMTag × Nat × Nat × Nat × Nat)))).2 := rfl

theorem getOpcodes_self (s : Str) :
    getOpcodes s s =
      if s.length = 0 then [] else [(SMTag.equal, 0, s.length, 0, s.length)] := by
  rw [getOpcodes_eq, getMatchingBlocks_self]
  by_cases hn : s.length = 0
  · simp [hn]
  · simp [hn]

theorem pySlice_full (s : Str) : pySlice s 0 s.length = s := by
  show (s.take s.length).drop 0 = s
  rw [List.drop_zero, List.take_length]

theorem diffPieces_self (s : Str) : diffPieces s s = (s, s) := by
  unfold diffPieces
  rw [show diffOpcodes s s = getOpcodes s s from rfl, getOpcodes_self]
  by_cases hn : s.length = 0
  · rw [if_pos hn, List.foldl_nil]
    rw [List.length_eq_zero.mp hn]
  · rw [if_neg hn, List.foldl_cons, List.foldl_nil]
    show (([] : Str) ++ pySlice s 0 s.length, ([] : Str) ++ pySlice s 0 s.length) = (s, s)
    rw [List.nil_append, pySlice_full]

theorem diff_self_render (s : Str) : diff s s = diffEqualTemplate s := by
  unfold diff diffEqualTemplate
  rw [diffPieces_self]

/-- C8: for every string `s`, the diff engine applied to the identical pair
`(s, s)` yields an opcode list with no insert, delete or replace opcode — it
is exactly one `equal` opcode spanning the whole string (empty for the empty
string) — and hence the rendered markup is the plain template carrying `s`
verbatim in both the expected and the actual span, with no `<ins>` or `<del>`
element. -/
theorem c8 (s : Str) :
    diffOpcodes s s =
      (if s.length = 0 then [] else [(SMTag.equal, 0, s.length, 0, s.length)]) ∧
    diff s s = diffEqualTemplate s :=
  ⟨getOpcodes_self s, diff_self_render s⟩

end CheckShaping
